import Mathlib

/-!
# blockchain-go: a shallow embedding of `blockchain.go`

The ledger of `blockchain.go` (a chain of blocks, a pool of pending
transactions, a set of peer addresses) with its operations `NewBlockChain`,
`NewBlock`, `NewTransaction`, `LastBlock`, `ProofOfWork`, `ValidProof`,
`RegisterNode`, `ValidChain`, `ResolveConflicts` and `hash`.

Modelling decisions.

* Go's `int` is `Int`; where a value can reach the 64-bit bounds (`p++` in
  `ProofOfWork`, `lb.Index + 1` in `NewTransaction`) the result is wrapped by
  `wrapInt64`.  `len(b.Chain) + 1` is not wrapped: a slice of blocks cannot
  hold `2^63 - 1` elements.
* A runtime failure (index out of range, `panic(err)`) is `Except.error`.
* `crypto/sha256` and `encoding/json` are libraries outside the repository:
  `Lib` carries `sha256.Sum256` and `json.Marshal` (on a `Block`) as
  parameters, the digest being 32 bytes.  `json.Marshal` of a `Block` returns
  an error exactly when the time stamp has a year outside 0..9999
  (`yearInRange`); `hash` then panics, as in the source.  Every theorem is
  stated for an arbitrary `Lib`.
* A time stamp is an `Int`: the seconds of its civil time counted from
  1970-01-01T00:00:00.  `time.Now()` is an argument of `NewBlock`, of type
  `Now`: a reading of the clock, whose year lies in 0..9999.
* `http.Get`, `ioutil.ReadAll` and `json.Unmarshal` of a peer's answer are the
  function `fetch` from the address to a `Response`: a transport error, or a
  status code with the decoded payload (any `Chain` and `Length`; a decoded
  time stamp has a four-digit year, so it lies in 0..9999).
* The map `Nodes` is an association list; the order in which `range` walks
  it is an argument (`scan`) of `ResolveConflicts`.
-/

namespace BlockchainGo

/-! ## Data model -/

/-- The struct `Transaction`. -/
structure Transaction where
  Sender : String
  Recipient : String
  Amount : Int
  deriving DecidableEq, Repr

/-- The struct `Block`. -/
structure Block where
  Index : Int
  Timestamp : Int
  Transactions : List Transaction
  Proof : Int
  PreviousHash : String
  deriving DecidableEq, Repr

/-- The struct `BlockChain`. -/
structure BlockChain where
  Chain : List Block
  CurrentTransactions : List Transaction
  Nodes : List (String × Int)
  deriving DecidableEq, Repr

/-- A runtime failure of the Go program. -/
inductive Panic where
  | indexOutOfRange
  | transport
  | marshal
  deriving DecidableEq, Repr

/-- The year of the time stamp lies in 0..9999: from 0000-01-01T00:00:00
to 9999-12-31T23:59:59, in seconds from 1970-01-01T00:00:00. -/
def yearInRange (stamp : Int) : Bool :=
  decide (-62167219200 ≤ stamp ∧ stamp < 253402300800)

/-- A value of `time.Now()`. -/
structure Now where
  stamp : Int
  inRange : yearInRange stamp = true

/-- The library functions the program calls: `sha256.Sum256` (32 bytes) and
`json.Marshal` applied to a `Block`, which returns an error (`none`) exactly
when the year of the time stamp is outside 0..9999. -/
structure Lib where
  sum256 : List Nat → List Nat
  marshal : Block → Option (List Nat)
  sum256_length : ∀ m, (sum256 m).length = 32
  sum256_byte : ∀ m b, b ∈ sum256 m → b < 256
  marshal_isSome : ∀ block, (marshal block).isSome = yearInRange block.Timestamp

/-! ## Formatting (`fmt.Sprintf`) -/

/-- A 64-bit two's complement wrap of an integer result. -/
def wrapInt64 (i : Int) : Int :=
  (i + 2 ^ 63) % 2 ^ 64 - 2 ^ 63

/-- One lowercase hexadecimal digit. -/
def hexDigit (n : Nat) : Char :=
  if n < 10 then Char.ofNat (48 + n) else Char.ofNat (87 + n)

/-- The verb `%x` on a byte array: two lowercase digits per byte. -/
def hexString : List Nat → List Char
  | [] => []
  | b :: bs => hexDigit (b / 16 % 16) :: hexDigit (b % 16) :: hexString bs

/-- The verb `%d` on an `int`. -/
def fmtInt (i : Int) : List Char :=
  (toString i).data

/-- The bytes of an ASCII string (`[]byte(s)`). -/
def toBytes (s : List Char) : List Nat :=
  s.map Char.toNat

/-! ## Operations -/

/-- The method `hash`: the hexadecimal SHA-256 digest of the JSON of a block,
or `panic(err)` when `json.Marshal` returns an error. -/
def hash (L : Lib) (block : Block) : Except Panic String :=
  match L.marshal block with
  | none => .error .marshal
  | some data => .ok (String.mk (hexString (L.sum256 data)))

/-- The method `ValidProof`. -/
def ValidProof (L : Lib) (lastProof : Int) (proof : Int) : Bool :=
  let guess := toBytes (fmtInt lastProof ++ fmtInt proof)
  let guessHash := hexString (L.sum256 guess)
  decide (guessHash.take 4 = ['0', '0', '0', '0'])

/-- The loop of `ProofOfWork` from candidate `p`, with at most `fuel` tests. -/
def ProofOfWorkLoop (L : Lib) (lastProof : Int) : Nat → Int → Option Int
  | 0, _ => none
  | fuel + 1, p =>
    if ValidProof L lastProof p = false then
      ProofOfWorkLoop L lastProof fuel (wrapInt64 (p + 1))
    else
      some p

/-- The method `ProofOfWork`, the loop started at `p := 0`. -/
def ProofOfWork (L : Lib) (fuel : Nat) (lastProof : Int) : Option Int :=
  ProofOfWorkLoop L lastProof fuel 0

/-- The method `LastBlock`: `b.Chain[len(b.Chain)-1]`. -/
def LastBlock (b : BlockChain) : Except Panic Block :=
  match b.Chain.getLast? with
  | some block => .ok block
  | none => .error .indexOutOfRange

/-- The method `NewBlock`; `now` is the value of `time.Now()`. Returns the
block and the ledger after the call. -/
def NewBlock (L : Lib) (b : BlockChain) (now : Now) (proof : Int) (previousHash : String) :
    Except Panic (Block × BlockChain) :=
  let build (ph : String) : Block × BlockChain :=
    let block : Block :=
      { Index := (b.Chain.length : Int) + 1
        Timestamp := now.stamp
        Transactions := b.CurrentTransactions
        Proof := proof
        PreviousHash := ph }
    (block, { b with CurrentTransactions := [], Chain := b.Chain ++ [block] })
  if previousHash.length = 0 then
    match b.Chain.getLast? with
    | some last =>
      match hash L last with
      | .ok ph => .ok (build ph)
      | .error e => .error e
    | none => .error .indexOutOfRange
  else
    .ok (build previousHash)

/-- The constructor `NewBlockChain`. -/
def NewBlockChain (L : Lib) (now : Now) : Except Panic BlockChain :=
  let b : BlockChain := { Chain := [], CurrentTransactions := [], Nodes := [] }
  match NewBlock L b now 100 "1" with
  | .ok (_, b1) => .ok { b1 with Nodes := [] }
  | .error e => .error e

/-- The method `NewTransaction`. Returns the announced index and the ledger
after the call. -/
def NewTransaction (b : BlockChain) (sender : String) (recipient : String) (amount : Int) :
    Except Panic (Int × BlockChain) :=
  let t : Transaction := { Sender := sender, Recipient := recipient, Amount := amount }
  let b1 : BlockChain := { b with CurrentTransactions := b.CurrentTransactions ++ [t] }
  match LastBlock b1 with
  | .ok lb => .ok (wrapInt64 (lb.Index + 1), b1)
  | .error e => .error e

/-- The method `RegisterNode`. -/
def RegisterNode (b : BlockChain) (address : String) : BlockChain :=
  match b.Nodes.lookup address with
  | some _ => b
  | none => { b with Nodes := b.Nodes ++ [(address, 1)] }

/-- The loop of `ValidChain`: `rest` is `chain[currentIndex:]`. -/
def ValidChainLoop (L : Lib) (lastBlock : Block) : List Block → Except Panic Bool
  | [] => .ok true
  | block :: rest =>
    match hash L lastBlock with
    | .error e => .error e
    | .ok h =>
      if block.PreviousHash ≠ h then .ok false
      else if ValidProof L lastBlock.Proof block.Proof = false then .ok false
      else ValidChainLoop L block rest

/-- The method `ValidChain`; `chain[0]` fails on an empty slice. -/
def ValidChain (L : Lib) (chain : List Block) : Except Panic Bool :=
  match chain with
  | [] => .error .indexOutOfRange
  | lastBlock :: rest => ValidChainLoop L lastBlock rest

/-- The decoded answer of a peer: the struct `data` of `ResolveConflicts`.
Every time stamp `json.Unmarshal` produces has a year in 0..9999. -/
structure Payload where
  Chain : List Block
  Length : Int
  decoded : ∀ block ∈ Chain, yearInRange block.Timestamp = true := by decide

/-- The outcome of `http.Get` followed by reading and decoding the body. -/
inductive Response where
  | transportError
  | status (code : Int) (data : Payload)

/-- The `for node := range neighbours` loop of `ResolveConflicts` over the
nodes still to visit, from the current `maxLength` and `newChain`. -/
def ResolveLoop (L : Lib) (fetch : String → Response) :
    List String → Int → List Block → Except Panic (Int × List Block)
  | [], maxLength, newChain => .ok (maxLength, newChain)
  | node :: rest, maxLength, newChain =>
    match fetch (node ++ "/chain") with
    | .transportError => .error .transport
    | .status code data =>
      if code ≠ 200 then ResolveLoop L fetch rest maxLength newChain
      else if data.Length > maxLength then
        match ValidChain L data.Chain with
        | .error e => .error e
        | .ok true => ResolveLoop L fetch rest data.Length data.Chain
        | .ok false => ResolveLoop L fetch rest maxLength newChain
      else ResolveLoop L fetch rest maxLength newChain

/-- The method `ResolveConflicts`; `scan` is the order in which `range`
visits the keys of `Nodes`. -/
def ResolveConflicts (L : Lib) (b : BlockChain) (scan : List String) (fetch : String → Response) :
    Except Panic (Bool × BlockChain) :=
  match ResolveLoop L fetch scan (b.Chain.length : Int) [] with
  | .error e => .error e
  | .ok (_, newChain) =>
    if newChain.length ≠ 0 then .ok (true, { b with Chain := newChain })
    else .ok (false, b)

/-- The handler `mineHandler`, its effect on the ledger: the proof found by
`ProofOfWork` (within `fuel` tests), the reward transaction, the new block. -/
def mineHandler (L : Lib) (b : BlockChain) (fuel : Nat) (now : Now) (nodeIdentifire : String) :
    Option (Except Panic (Block × BlockChain)) :=
  match LastBlock b with
  | .error e => some (.error e)
  | .ok lastBlock =>
    match ProofOfWork L fuel lastBlock.Proof with
    | none => none
    | some proof =>
      match NewTransaction b "0" nodeIdentifire 1 with
      | .error e => some (.error e)
      | .ok (_, b1) => some (NewBlock L b1 now proof "")

/-! ## A concrete library for evaluation -/

/-- A small stand-in for the digest: 32 bytes, each the sum of the message's
bytes modulo 5. -/
def toyLib : Lib where
  sum256 m := List.replicate 32 (m.sum % 5)
  marshal block :=
    if yearInRange block.Timestamp = true then
      some ([block.Index.toNat % 256, block.Proof.toNat % 256] ++ toBytes block.PreviousHash.data)
    else none
  marshal_isSome block := by
    cases h : yearInRange block.Timestamp <;> simp [h]
  sum256_length m := by simp
  sum256_byte m b hb := by
    have := List.eq_of_mem_replicate hb
    omega

/-! ## Notions used to state the properties -/

/-- The two tests `ValidChain` makes on a block `cur` and its predecessor
`prev`. -/
def Link (L : Lib) (prev cur : Block) : Prop :=
  hash L prev = .ok cur.PreviousHash ∧ ValidProof L prev.Proof cur.Proof = true

/-- Every block at a position `i > 0` passes the two tests against the block
at position `i - 1`. -/
def Linked (L : Lib) (chain : List Block) : Prop :=
  ∀ (i : Nat) (_ : 0 < i) (hi : i < chain.length),
    hash L (chain.get ⟨i - 1, by omega⟩) = .ok (chain.get ⟨i, hi⟩).PreviousHash ∧
      ValidProof L (chain.get ⟨i - 1, by omega⟩).Proof (chain.get ⟨i, hi⟩).Proof = true

/-- The ledgers produced from a fresh one by `NewTransaction` calls and mining
steps: `ProofOfWork` on the last block's proof, then `NewBlock proof ""`
(directly, or as `mineHandler` does it, with the reward transaction between). -/
inductive Produced (L : Lib) : BlockChain → Prop where
  | fresh (now : Now) (b : BlockChain) :
      NewBlockChain L now = .ok b → Produced L b
  | newTransaction (b : BlockChain) (sender recipient : String) (amount idx : Int)
      (b1 : BlockChain) :
      Produced L b → NewTransaction b sender recipient amount = .ok (idx, b1) → Produced L b1
  | mine (b : BlockChain) (fuel : Nat) (now : Now) (proof : Int) (last block : Block)
      (b1 : BlockChain) :
      Produced L b → LastBlock b = .ok last → ProofOfWork L fuel last.Proof = some proof →
      NewBlock L b now proof "" = .ok (block, b1) → Produced L b1
  | mineHandler (b : BlockChain) (fuel : Nat) (now : Now) (nodeIdentifire : String)
      (block : Block) (b1 : BlockChain) :
      Produced L b → mineHandler L b fuel now nodeIdentifire = some (.ok (block, b1)) →
      Produced L b1

/-- The ledgers reached from a fresh one by `NewTransaction`, `NewBlock`,
`RegisterNode` and `ResolveConflicts`, the peers answering anything, except
that a chain `ResolveConflicts` adopts satisfies `adoptable`. -/
inductive Reachable (L : Lib) (adoptable : List Block → Prop) : BlockChain → Prop where
  | fresh (now : Now) (b : BlockChain) :
      NewBlockChain L now = .ok b → Reachable L adoptable b
  | newTransaction (b : BlockChain) (sender recipient : String) (amount idx : Int)
      (b1 : BlockChain) :
      Reachable L adoptable b → NewTransaction b sender recipient amount = .ok (idx, b1) →
      Reachable L adoptable b1
  | newBlock (b : BlockChain) (now : Now) (proof : Int) (previousHash : String) (block : Block)
      (b1 : BlockChain) :
      Reachable L adoptable b → NewBlock L b now proof previousHash = .ok (block, b1) →
      Reachable L adoptable b1
  | registerNode (b : BlockChain) (address : String) :
      Reachable L adoptable b → Reachable L adoptable (RegisterNode b address)
  | resolveConflicts (b : BlockChain) (scan : List String) (fetch : String → Response)
      (replaced : Bool) (b1 : BlockChain) :
      Reachable L adoptable b → scan.Perm (b.Nodes.map Prod.fst) →
      ResolveConflicts L b scan fetch = .ok (replaced, b1) →
      (replaced = true → adoptable b1.Chain) → Reachable L adoptable b1

/-- No restriction on the chains a peer may send. -/
def anyChain (_ : List Block) : Prop := True

/-- The last block of the chain carries the chain's length as its `Index`. -/
def WellNumbered (chain : List Block) : Prop :=
  ∀ last, chain.getLast? = some last → last.Index = (chain.length : Int)

/-- The copy of a chain in which block `k` has its `PreviousHash` replaced. -/
def tamper : List Block → Nat → String → List Block
  | [], _, _ => []
  | block :: rest, 0, s => { block with PreviousHash := s } :: rest
  | block :: rest, k + 1, s => block :: tamper rest k s

/-- One `NewTransaction` call per transaction of the list, in order. -/
def NewTransactions (b : BlockChain) : List Transaction → Except Panic BlockChain
  | [] => .ok b
  | t :: ts =>
    match NewTransaction b t.Sender t.Recipient t.Amount with
    | .ok (_, b1) => NewTransactions b1 ts
    | .error e => .error e

/-- A peer's answer qualifies above `m`: its reported `Length` exceeds `m`
and `ValidChain` accepts its chain. -/
def Qualifies (L : Lib) (m : Int) (data : Payload) : Prop :=
  data.Length > m ∧ ValidChain L data.Chain = .ok true

/-- The node `scan[j]` answers with status 200 and payload `data`. -/
def Answers (fetch : String → Response) (scan : List String) (j : Nat) (data : Payload) : Prop :=
  ∃ node, scan[j]? = some node ∧ fetch (node ++ "/chain") = .status 200 data

/-- The answer `data` of the node at position `i` of the scan qualifies above
`m`, no qualifying answer reports a greater length, and every qualifying
answer earlier in the scan reports a smaller one. -/
def BestAt (L : Lib) (fetch : String → Response) (scan : List String) (m : Int) (i : Nat)
    (data : Payload) : Prop :=
  Answers fetch scan i data ∧ Qualifies L m data ∧
    ∀ (j : Nat) (other : Payload), Answers fetch scan j other → Qualifies L m other →
      other.Length ≤ data.Length ∧ (j < i → other.Length < data.Length)

/-! ## Concrete ledgers and peers -/

/-- The genesis block made at time 0. -/
def genesis : Block :=
  { Index := 1, Timestamp := 0, Transactions := [], Proof := 100, PreviousHash := "1" }

/-- The ledger `NewBlockChain` returns at time 0. -/
def freshLedger : BlockChain :=
  { Chain := [genesis], CurrentTransactions := [], Nodes := [] }

/-- The clock reading 0. -/
def clock0 : Now := ⟨0, by decide⟩

/-- The clock reading 1. -/
def clock1 : Now := ⟨1, by decide⟩

/-- The block mined on `freshLedger` at time 1 under `toyLib`, where the hash
of `genesis` is 64 zeros. -/
def secondBlock : Block :=
  { Index := 2, Timestamp := 1, Transactions := [], Proof := 2,
    PreviousHash := String.mk (List.replicate 64 '0') }

/-- A block whose time stamp is 10000-01-01T00:00:00. -/
def y10kBlock : Block :=
  { Index := 1, Timestamp := 253402300800, Transactions := [], Proof := 100,
    PreviousHash := "1" }

/-- A ledger whose only block is `y10kBlock`, with an empty pool. -/
def y10kLedger : BlockChain :=
  { Chain := [y10kBlock], CurrentTransactions := [], Nodes := [] }

/-- The ledger `freshLedger` after one mining step. -/
def minedLedger : BlockChain :=
  { Chain := [genesis, secondBlock], CurrentTransactions := [], Nodes := [] }

/-- Two transactions. -/
def sampleTxs : List Transaction :=
  [{ Sender := "alice", Recipient := "bob", Amount := 3 },
   { Sender := "bob", Recipient := "carol", Amount := 1 }]

/-- A block a peer made up: it is numbered 7. -/
def forgedBlock : Block :=
  { Index := 7, Timestamp := 0, Transactions := [], Proof := 0, PreviousHash := "" }

/-- A peer answering with the one-block chain `[forgedBlock]` and `Length` 5. -/
def forgedPeer (_ : String) : Response :=
  .status 200 { Chain := [forgedBlock], Length := 5 }

/-- The ledger `freshLedger` after `RegisterNode "a"` and the adoption of the
chain of `forgedPeer`. -/
def forgedLedger : BlockChain :=
  { Chain := [forgedBlock], CurrentTransactions := [], Nodes := [("a", 1)] }

/-- Two peers: `a` answers with an empty chain and `Length` 5, every other
address with the one-block chain `[genesis]` and `Length` 2. -/
def emptyChainPeers (address : String) : Response :=
  if address = "a/chain" then .status 200 { Chain := [], Length := 5 }
  else .status 200 { Chain := [genesis], Length := 2 }

/-! ## Further notions and concrete peers -/

/-- The answer is one the loop of `ResolveConflicts` passes over with
`continue`: a status other than 200. -/
def nonSuccess : Response → Bool
  | .transportError => false
  | .status code _ => decide (code ≠ 200)

/-- The scan without the nodes that answer with a status other than 200. -/
def withoutNonSuccess (fetch : String → Response) (scan : List String) : List String :=
  scan.filter (fun node => !nonSuccess (fetch (node ++ "/chain")))

/-- The block at position `i` (from 0) carries `Index` `i + 1`. -/
def Numbered (chain : List Block) : Prop :=
  ∀ (i : Nat) (block : Block), chain[i]? = some block → block.Index = (i : Int) + 1

/-- The address is a key of the map `Nodes` (`_, ok := b.Nodes[address]`). -/
def knows (b : BlockChain) (address : String) : Bool :=
  (b.Nodes.lookup address).isSome

/-- The loop of `nodeRegisterHandler` over the addresses of the request. -/
def nodeRegisterLoop (b : BlockChain) : List String → BlockChain
  | [] => b
  | n :: rest =>
    match b.Nodes.lookup n with
    | some _ => nodeRegisterLoop b rest
    | none => nodeRegisterLoop { b with Nodes := b.Nodes ++ [(n, 1)] } rest

/-- A call of `NewTransaction` or of `NewBlock`, with its arguments (and the
time at which `NewBlock` runs). -/
inductive Call where
  | newTransaction (sender recipient : String) (amount : Int)
  | newBlock (now : Now) (proof : Int) (previousHash : String)

/-- The ledger after a sequence of calls, each applied to the ledger the
previous one left. -/
def runCalls (L : Lib) (b : BlockChain) : List Call → Except Panic BlockChain
  | [] => .ok b
  | .newTransaction sender recipient amount :: rest =>
    match NewTransaction b sender recipient amount with
    | .ok (_, b1) => runCalls L b1 rest
    | .error e => .error e
  | .newBlock now proof previousHash :: rest =>
    match NewBlock L b now proof previousHash with
    | .ok (_, b1) => runCalls L b1 rest
    | .error e => .error e

/-- The transactions a sequence of calls submits, in submission order. -/
def submitted : List Call → List Transaction
  | [] => []
  | .newTransaction sender recipient amount :: rest =>
    { Sender := sender, Recipient := recipient, Amount := amount } :: submitted rest
  | .newBlock _ _ _ :: rest => submitted rest

/-- The transactions of all blocks in chain order, then the pending pool. -/
def ledgerTransactions (b : BlockChain) : List Transaction :=
  (b.Chain.map (fun block => block.Transactions)).flatten ++ b.CurrentTransactions

/-- A peer answering with the chain of `minedLedger` in which the second
block's `PreviousHash` is replaced, and `Length` 5. -/
def tamperedPeer (_ : String) : Response :=
  .status 200 { Chain := tamper minedLedger.Chain 1 "x", Length := 5 }

/-- Two peers: `a` is unreachable, every other address answers with the
one-block chain `[genesis]` and `Length` 2. -/
def unreachablePeers (address : String) : Response :=
  if address = "a/chain" then .transportError
  else .status 200 { Chain := [genesis], Length := 2 }

/-- A peer answering with an empty chain and `Length` 5. -/
def emptyChainPeer (_ : String) : Response :=
  .status 200 { Chain := [], Length := 5 }

/-- Four calls: two transactions, a block, one more transaction. -/
def sampleCalls : List Call :=
  [.newTransaction "alice" "bob" 3, .newTransaction "bob" "carol" 1, .newBlock clock1 2 "",
   .newTransaction "carol" "alice" 2]


/-- A peer answering with the chain of `minedLedger` and its true length 2. -/
def honestPeer (_ : String) : Response :=
  .status 200 { Chain := minedLedger.Chain, Length := 2 }


/-! ## The spec's words for the proof predicate -/

/-- The decimal string of a natural number, as ASCII bytes: its base-10 digits
(Mathlib's `Nat.digits`), most significant first, and "0" for zero. -/
def decimalNat (n : Nat) : List Nat :=
  if n = 0 then [48] else (Nat.digits 10 n).reverse.map (fun d => 48 + d)

/-- The decimal string of an integer, as ASCII bytes: a minus sign before the
digits of a negative number. -/
def asciiDecimal (i : Int) : List Nat :=
  if i < 0 then 45 :: decimalNat i.natAbs else decimalNat i.natAbs

/-- The lowercase hexadecimal string of a digest: for each byte the character
of its high half and the character of its low half, out of
"0123456789abcdef". -/
def lowerHex (digest : List Nat) : List Char :=
  digest.flatMap (fun b =>
    ["0123456789abcdef".data.getD (b / 16) '?', "0123456789abcdef".data.getD (b % 16) '?'])


/-! ## Proof of work -/

theorem wrapInt64_succ (p : Int) (h0 : 0 ≤ p) (h1 : p + 1 < 2 ^ 63) :
    wrapInt64 (p + 1) = p + 1 := by
  unfold wrapInt64
  norm_num at h1 ⊢
  omega

theorem ProofOfWorkLoop_valid (L : Lib) (lastProof : Int) :
    ∀ (fuel : Nat) (p r : Int), ProofOfWorkLoop L lastProof fuel p = some r →
      ValidProof L lastProof r = true := by
  intro fuel
  induction fuel with
  | zero => intro p r h; simp [ProofOfWorkLoop] at h
  | succ n ih =>
    intro p r h
    unfold ProofOfWorkLoop at h
    by_cases hv : ValidProof L lastProof p = false
    · rw [if_pos hv] at h
      exact ih _ _ h
    · rw [if_neg hv] at h
      cases h
      simpa using hv

theorem ProofOfWorkLoop_mono (L : Lib) (lastProof : Int) :
    ∀ (fuel : Nat) (p r : Int) (k : Nat), ProofOfWorkLoop L lastProof fuel p = some r →
      ProofOfWorkLoop L lastProof (fuel + k) p = some r := by
  intro fuel
  induction fuel with
  | zero => intro p r k h; simp [ProofOfWorkLoop] at h
  | succ n ih =>
    intro p r k h
    have e : n + 1 + k = (n + k) + 1 := by omega
    rw [e]
    unfold ProofOfWorkLoop at h ⊢
    by_cases hv : ValidProof L lastProof p = false
    · rw [if_pos hv] at h ⊢
      exact ih _ _ k h
    · rw [if_neg hv] at h ⊢
      exact h

theorem ProofOfWorkLoop_least (L : Lib) (lastProof : Int) :
    ∀ (d : Nat) (p q : Int), 0 ≤ p → p ≤ q → q < 2 ^ 63 → (q - p).toNat = d →
      ValidProof L lastProof q = true →
      ∃ r : Int, p ≤ r ∧ r ≤ q ∧ ValidProof L lastProof r = true ∧
        (∀ c, p ≤ c → c < r → ValidProof L lastProof c = false) ∧
        ∀ fuel : Nat, (r - p).toNat < fuel → ProofOfWorkLoop L lastProof fuel p = some r := by
  intro d
  induction d with
  | zero =>
    intro p q hp hpq hq hd hv
    have e : q = p := by omega
    subst e
    refine ⟨q, le_refl _, le_refl _, hv, ?_, ?_⟩
    · intro c h1 h2; omega
    · intro fuel hf
      cases fuel with
      | zero => omega
      | succ n => simp [ProofOfWorkLoop, hv]
  | succ n ih =>
    intro p q hp hpq hq hd hv
    by_cases hvp : ValidProof L lastProof p = false
    · have hlt : p + 1 < 2 ^ 63 := by omega
      obtain ⟨r, h1, h2, h3, h4, h5⟩ :=
        ih (p + 1) q (by omega) (by omega) hq (by omega) hv
      refine ⟨r, by omega, h2, h3, ?_, ?_⟩
      · intro c hc1 hc2
        by_cases hc : c = p
        · rw [hc]; exact hvp
        · exact h4 c (by omega) hc2
      · intro fuel hf
        cases fuel with
        | zero => omega
        | succ m =>
          unfold ProofOfWorkLoop
          rw [if_pos hvp, wrapInt64_succ p hp hlt]
          exact h5 m (by omega)
    · refine ⟨p, le_refl _, hpq, by simpa using hvp, ?_, ?_⟩
      · intro c h1 h2; omega
      · intro fuel hf
        cases fuel with
        | zero => omega
        | succ m => simp [ProofOfWorkLoop, hvp]

/-- C1: when some candidate `q` of Go's `int` range, `0 ≤ q`, satisfies
`ValidProof lastProof q`, the search of `ProofOfWork lastProof` ends: there is
a result `r` that every run with more than `r` tests returns and no run
contradicts, `r` satisfies `ValidProof`, and no candidate `0 ≤ c < r` does. -/
theorem C1_ProofOfWork_least (L : Lib) (lastProof q : Int) (hq0 : 0 ≤ q) (hq : q < 2 ^ 63)
    (hv : ValidProof L lastProof q = true) :
    ∃ r : Int, 0 ≤ r ∧ r ≤ q ∧
      (∀ fuel : Nat, r.toNat < fuel → ProofOfWork L fuel lastProof = some r) ∧
      (∀ (fuel : Nat) (r' : Int), ProofOfWork L fuel lastProof = some r' → r' = r) ∧
      ValidProof L lastProof r = true ∧
      ∀ c : Int, 0 ≤ c → c < r → ValidProof L lastProof c = false := by
  obtain ⟨r, h1, h2, h3, h4, h5⟩ :=
    ProofOfWorkLoop_least L lastProof (q - 0).toNat 0 q (le_refl _) hq0 hq rfl hv
  refine ⟨r, h1, h2, ?_, ?_, h3, h4⟩
  · intro fuel hf
    exact h5 fuel (by simpa using hf)
  · intro fuel r' hr'
    have a := ProofOfWorkLoop_mono L lastProof fuel 0 r' (r.toNat + 1) hr'
    have b := h5 (fuel + (r.toNat + 1)) (by simp; omega)
    rw [b] at a
    cases a
    rfl

/-- C1 at `lastProof = 100` with the stand-in digest, where candidate `7` is
valid: the hypotheses hold and the least valid candidate exists. -/
theorem C1_ProofOfWork_least_witness :
    ValidProof toyLib 100 7 = true ∧
    ∃ r : Int, 0 ≤ r ∧ r ≤ 7 ∧
      (∀ fuel : Nat, r.toNat < fuel → ProofOfWork toyLib fuel 100 = some r) ∧
      (∀ (fuel : Nat) (r' : Int), ProofOfWork toyLib fuel 100 = some r' → r' = r) ∧
      ValidProof toyLib 100 r = true ∧
      ∀ c : Int, 0 ≤ c → c < r → ValidProof toyLib 100 c = false :=
  ⟨by decide, C1_ProofOfWork_least toyLib 100 7 (by decide) (by decide) (by decide)⟩

/-! ## Chain validation -/

theorem hash_ok_of_inRange (L : Lib) (block : Block)
    (h : yearInRange block.Timestamp = true) : ∃ ph, hash L block = .ok ph := by
  unfold hash
  cases hm : L.marshal block with
  | none =>
    have := L.marshal_isSome block
    rw [hm, h] at this
    cases this
  | some data => exact ⟨_, rfl⟩

theorem hash_error_of_outOfRange (L : Lib) (block : Block)
    (h : yearInRange block.Timestamp = false) : hash L block = .error .marshal := by
  unfold hash
  cases hm : L.marshal block with
  | none => rfl
  | some data =>
    have := L.marshal_isSome block
    rw [hm, h] at this
    cases this

theorem inRange_of_hash_ok (L : Lib) (block : Block) (ph : String)
    (h : hash L block = .ok ph) : yearInRange block.Timestamp = true := by
  cases hy : yearInRange block.Timestamp with
  | true => rfl
  | false =>
    rw [hash_error_of_outOfRange L block hy] at h
    cases h

theorem ValidChainLoop_cons (L : Lib) (lastBlock block : Block) (rest : List Block) :
    ValidChainLoop L lastBlock (block :: rest) = .ok true ↔
      Link L lastBlock block ∧ ValidChainLoop L block rest = .ok true := by
  simp only [ValidChainLoop, Link]
  cases hh : hash L lastBlock with
  | error e => simp
  | ok ph =>
    simp only [Except.ok.injEq]
    by_cases h1 : block.PreviousHash = ph
    · by_cases h2 : ValidProof L lastBlock.Proof block.Proof = true
      · simp [h1, h2]
      · simp [h1, h2]
    · have h3 : ¬ ph = block.PreviousHash := fun e => h1 e.symm
      simp [h1, h3]

theorem ValidChainLoop_iff_chain (L : Lib) :
    ∀ (rest : List Block) (lastBlock : Block),
      ValidChainLoop L lastBlock rest = .ok true ↔ List.Chain (Link L) lastBlock rest := by
  intro rest
  induction rest with
  | nil => intro lastBlock; simp [ValidChainLoop]
  | cons block tl ih =>
    intro lastBlock
    rw [ValidChainLoop_cons, ih block, List.chain_cons]

theorem ValidChain_iff_chain (L : Lib) (chain : List Block) (hne : chain ≠ []) :
    ValidChain L chain = .ok true ↔ List.Chain' (Link L) chain := by
  cases chain with
  | nil => exact absurd rfl hne
  | cons b0 rest =>
    simp only [ValidChain, List.Chain']
    exact ValidChainLoop_iff_chain L rest b0

theorem Linked_iff_chain (L : Lib) (chain : List Block) :
    Linked L chain ↔ List.Chain' (Link L) chain := by
  rw [List.chain'_iff_get]
  constructor
  · intro h i hi
    have := h (i + 1) (by omega) (by omega)
    simpa [Link] using this
  · intro h i h0 hi
    obtain ⟨j, rfl⟩ : ∃ j, i = j + 1 := ⟨i - 1, by omega⟩
    have := h j (by omega)
    simpa [Link] using this

theorem ValidChainLoop_ok (L : Lib) :
    ∀ (rest : List Block) (lastBlock : Block),
      (∀ block ∈ lastBlock :: rest, yearInRange block.Timestamp = true) →
      ∃ r : Bool, ValidChainLoop L lastBlock rest = .ok r := by
  intro rest
  induction rest with
  | nil => intro lastBlock _; exact ⟨true, rfl⟩
  | cons block tl ih =>
    intro lastBlock hall
    obtain ⟨ph, hph⟩ := hash_ok_of_inRange L lastBlock (hall lastBlock (by simp))
    simp only [ValidChainLoop, hph]
    by_cases h1 : block.PreviousHash ≠ ph
    · rw [if_pos h1]
      exact ⟨false, rfl⟩
    · rw [if_neg h1]
      by_cases h2 : ValidProof L lastBlock.Proof block.Proof = false
      · rw [if_pos h2]
        exact ⟨false, rfl⟩
      · rw [if_neg h2]
        exact ih block (fun x hx => hall x (List.mem_cons_of_mem _ hx))

theorem ValidChain_ok (L : Lib) (chain : List Block) (hne : chain ≠ [])
    (hall : ∀ block ∈ chain, yearInRange block.Timestamp = true) :
    ∃ r : Bool, ValidChain L chain = .ok r := by
  cases chain with
  | nil => exact absurd rfl hne
  | cons b0 rest => exact ValidChainLoop_ok L rest b0 hall

theorem ValidChainLoop_congr (L : Lib) :
    ∀ (r1 r2 : List Block) (a1 a2 : Block),
      List.Forall₂ (fun x y : Block =>
        x.PreviousHash = y.PreviousHash ∧ x.Proof = y.Proof ∧ hash L x = hash L y)
        (a1 :: r1) (a2 :: r2) →
      ValidChainLoop L a1 r1 = ValidChainLoop L a2 r2 := by
  intro r1
  induction r1 with
  | nil =>
    intro r2 a1 a2 h
    cases h with
    | cons _ ht => cases ht; rfl
  | cons x xs ih =>
    intro r2 a1 a2 h
    cases h with
    | cons ha ht =>
      cases r2 with
      | nil => cases ht
      | cons y ys =>
        have hxy := ht
        cases ht with
        | cons hb _ =>
          simp only [ValidChainLoop]
          rw [ih ys x y hxy, ha.2.2, ha.2.1, hb.1, hb.2.1]

/-- C2: on a non-empty chain `ValidChain` returns `true` exactly when every
block at a position `0 < i < len(chain)` has `PreviousHash` equal to the value
`hash(chain[i-1])` returns and `ValidProof(chain[i-1].Proof, chain[i].Proof)`.
Two chains whose blocks agree, position by position, in `PreviousHash`, in
`Proof` and in the outcome of `hash` get the same answer: `Index`,
`Timestamp` and `Transactions` count only through `hash`. When every time
stamp of the chain has a year in 0..9999, so that `hash` does not panic,
`ValidChain` returns a Boolean. -/
theorem C2_ValidChain_iff (L : Lib) (chain : List Block) (hne : chain ≠ []) :
    (ValidChain L chain = .ok true ↔
      ∀ (i : Nat) (_ : 0 < i) (hi : i < chain.length),
        hash L (chain.get ⟨i - 1, by omega⟩) = .ok (chain.get ⟨i, hi⟩).PreviousHash ∧
          ValidProof L (chain.get ⟨i - 1, by omega⟩).Proof (chain.get ⟨i, hi⟩).Proof = true) ∧
    (∀ other : List Block,
      List.Forall₂ (fun x y : Block =>
        x.PreviousHash = y.PreviousHash ∧ x.Proof = y.Proof ∧ hash L x = hash L y)
        chain other →
      ValidChain L other = ValidChain L chain) ∧
    ((∀ block ∈ chain, yearInRange block.Timestamp = true) →
      ∃ r : Bool, ValidChain L chain = .ok r) := by
  refine ⟨?_, ?_, ValidChain_ok L chain hne⟩
  · rw [ValidChain_iff_chain L chain hne, ← Linked_iff_chain]
    rfl
  · intro other h
    cases h with
    | nil => rfl
    | cons ha ht =>
      simp only [ValidChain]
      rw [ValidChainLoop_congr L _ _ _ _ (List.Forall₂.cons ha ht)]

/-- The panic path of `hash` inside `ValidChain`: a chain whose first block is
stamped 10000-01-01T00:00:00 makes `json.Marshal` fail, and `ValidChain`
panics instead of returning a Boolean. -/
theorem ValidChain_marshal_panic :
    hash toyLib y10kBlock = .error .marshal ∧
      ValidChain toyLib [y10kBlock, genesis] = .error .marshal :=
  ⟨rfl, rfl⟩

/-- C3: on the empty chain `ValidChain` fails at `chain[0]` (index out of
range) instead of returning `true`; on every chain of one block it returns
`true`. -/
theorem C3_ValidChain_short (L : Lib) :
    ValidChain L [] = .error .indexOutOfRange ∧ ∀ block : Block, ValidChain L [block] = .ok true := by
  refine ⟨rfl, ?_⟩
  intro block
  rfl

/-! ## The ledger operations -/

theorem String_length_eq_zero (s : String) : s.length = 0 ↔ s = "" := by
  cases s with
  | mk d =>
    simp only [String.length]
    constructor
    · intro h
      rw [List.length_eq_zero] at h
      subst h
      rfl
    · intro h
      have := congrArg String.data h
      simp at this
      simp [this]

theorem getLast?_ne_nil {α : Type} (l : List α) (hne : l ≠ []) : ∃ a, l.getLast? = some a := by
  cases h : l.getLast? with
  | none => simp at h; exact absurd h hne
  | some a => exact ⟨a, rfl⟩

theorem LastBlock_ok (b : BlockChain) (last : Block) :
    LastBlock b = .ok last ↔ b.Chain.getLast? = some last := by
  unfold LastBlock
  cases h : b.Chain.getLast? with
  | none => simp
  | some x => simp

theorem NewBlock_spec (L : Lib) (b : BlockChain) (now : Now) (proof : Int)
    (previousHash : String) (block : Block) (b1 : BlockChain)
    (h : NewBlock L b now proof previousHash = .ok (block, b1)) :
    block.Index = (b.Chain.length : Int) + 1 ∧ block.Timestamp = now.stamp ∧
      block.Transactions = b.CurrentTransactions ∧ block.Proof = proof ∧
      (previousHash.length ≠ 0 → block.PreviousHash = previousHash) ∧
      (previousHash.length = 0 →
        ∃ last, b.Chain.getLast? = some last ∧ hash L last = .ok block.PreviousHash) ∧
      b1 = { Chain := b.Chain ++ [block], CurrentTransactions := [], Nodes := b.Nodes } := by
  unfold NewBlock at h
  by_cases hp : previousHash.length = 0
  · simp only [hp, if_true] at h
    cases hl : b.Chain.getLast? with
    | none => simp [hl] at h
    | some last =>
      simp only [hl] at h
      cases hh : hash L last with
      | error e => simp [hh] at h
      | ok ph =>
        simp only [hh, Except.ok.injEq, Prod.mk.injEq] at h
        obtain ⟨rfl, rfl⟩ := h
        simp [hp, hh]
  · simp only [hp, if_false, Except.ok.injEq, Prod.mk.injEq] at h
    obtain ⟨rfl, rfl⟩ := h
    simp [hp]

theorem NewBlock_total (L : Lib) (b : BlockChain) (now : Now) (proof : Int)
    (previousHash : String)
    (hne : previousHash.length ≠ 0 ∨
      ∃ last, b.Chain.getLast? = some last ∧ yearInRange last.Timestamp = true) :
    ∃ block b1, NewBlock L b now proof previousHash = .ok (block, b1) := by
  unfold NewBlock
  by_cases hp : previousHash.length = 0
  · have hc : ∃ last, b.Chain.getLast? = some last ∧ yearInRange last.Timestamp = true := by
      cases hne with
      | inl h => exact absurd hp h
      | inr h => exact h
    obtain ⟨last, hl, hy⟩ := hc
    obtain ⟨ph, hph⟩ := hash_ok_of_inRange L last hy
    simp only [hp, if_true, hl, hph]
    exact ⟨_, _, rfl⟩
  · simp only [hp, if_false]
    exact ⟨_, _, rfl⟩

theorem NewBlock_marshal_fails (L : Lib) (b : BlockChain) (now : Now) (proof : Int)
    (last : Block) (hl : b.Chain.getLast? = some last)
    (hy : yearInRange last.Timestamp = false) :
    NewBlock L b now proof "" = .error .marshal := by
  unfold NewBlock
  have hz : ("" : String).length = 0 := rfl
  simp only [hz, if_true, hl, hash_error_of_outOfRange L last hy]

theorem NewTransaction_spec (b : BlockChain) (sender recipient : String) (amount idx : Int)
    (b1 : BlockChain) (h : NewTransaction b sender recipient amount = .ok (idx, b1)) :
    (∃ last, b.Chain.getLast? = some last ∧ idx = wrapInt64 (last.Index + 1)) ∧
      b1 = { Chain := b.Chain
             CurrentTransactions := b.CurrentTransactions ++
               [{ Sender := sender, Recipient := recipient, Amount := amount }]
             Nodes := b.Nodes } := by
  unfold NewTransaction LastBlock at h
  cases hl : b.Chain.getLast? with
  | none => simp [hl] at h
  | some last =>
    simp only [hl, Except.ok.injEq, Prod.mk.injEq] at h
    obtain ⟨rfl, rfl⟩ := h
    exact ⟨⟨last, rfl, rfl⟩, rfl⟩

theorem NewTransaction_total (b : BlockChain) (sender recipient : String) (amount : Int)
    (hne : b.Chain ≠ []) :
    ∃ idx b1, NewTransaction b sender recipient amount = .ok (idx, b1) := by
  obtain ⟨last, hl⟩ := getLast?_ne_nil b.Chain hne
  unfold NewTransaction LastBlock
  simp only [hl]
  exact ⟨_, _, rfl⟩

theorem NewBlockChain_eq (L : Lib) (now : Now) :
    NewBlockChain L now = .ok
      { Chain := [{ Index := 1, Timestamp := now.stamp, Transactions := [], Proof := 100,
                    PreviousHash := "1" }]
        CurrentTransactions := []
        Nodes := [] } := by
  rfl

theorem ProofOfWork_valid (L : Lib) (fuel : Nat) (lastProof proof : Int)
    (h : ProofOfWork L fuel lastProof = some proof) : ValidProof L lastProof proof = true :=
  ProofOfWorkLoop_valid L lastProof fuel 0 proof h

theorem chain_append_link (L : Lib) (chain : List Block) (last block : Block)
    (hc : List.Chain' (Link L) chain) (hl : chain.getLast? = some last)
    (hk : Link L last block) : List.Chain' (Link L) (chain ++ [block]) := by
  refine List.Chain'.append hc (List.chain'_singleton block) ?_
  intro x hx y hy
  rw [hl] at hx
  simp at hx hy
  subst hx hy
  exact hk

theorem mine_step (L : Lib) (b : BlockChain) (fuel : Nat) (now : Now) (proof : Int)
    (last block : Block)
    (b1 : BlockChain) (hc : List.Chain' (Link L) b.Chain)
    (hl : b.Chain.getLast? = some last) (hp : ProofOfWork L fuel last.Proof = some proof)
    (hb : NewBlock L b now proof "" = .ok (block, b1)) :
    b1.Chain ≠ [] ∧ List.Chain' (Link L) b1.Chain := by
  obtain ⟨-, -, -, h4, -, h6, h7⟩ := NewBlock_spec L b now proof "" block b1 hb
  obtain ⟨last1, hl1, hph⟩ := h6 rfl
  rw [hl] at hl1
  cases hl1
  subst h7
  refine ⟨by simp, chain_append_link L b.Chain last block hc hl ⟨hph, ?_⟩⟩
  rw [h4]
  exact ProofOfWork_valid L fuel _ _ hp

theorem Produced_inv (L : Lib) (b : BlockChain) (h : Produced L b) :
    b.Chain ≠ [] ∧ List.Chain' (Link L) b.Chain := by
  induction h with
  | fresh now b hb =>
    rw [NewBlockChain_eq] at hb
    cases hb
    exact ⟨by simp, List.chain'_singleton _⟩
  | newTransaction b sender recipient amount idx b1 _ ht ih =>
    obtain ⟨-, rfl⟩ := NewTransaction_spec b sender recipient amount idx b1 ht
    exact ih
  | mine b fuel now proof last block b1 _ hl hp hb ih =>
    exact mine_step L b fuel now proof last block b1 ih.2 ((LastBlock_ok b last).1 hl) hp hb
  | mineHandler b fuel now nodeIdentifire block b1 _ hm ih =>
    unfold mineHandler at hm
    cases hl : LastBlock b with
    | error e => simp [hl] at hm
    | ok last =>
      simp only [hl] at hm
      cases hp : ProofOfWork L fuel last.Proof with
      | none => simp [hp] at hm
      | some proof =>
        simp only [hp] at hm
        cases ht : NewTransaction b "0" nodeIdentifire 1 with
        | error e => simp [ht] at hm
        | ok r =>
          obtain ⟨idx, b2⟩ := r
          simp only [ht, Option.some.injEq] at hm
          obtain ⟨-, hb2⟩ := NewTransaction_spec b "0" nodeIdentifire 1 idx b2 ht
          have hc2 : b2.Chain = b.Chain := by rw [hb2]
          exact mine_step L b2 fuel now proof last block b1 (hc2 ▸ ih.2)
            (hc2 ▸ (LastBlock_ok b last).1 hl) hp hm

/-- C4: in every ledger produced from a fresh one by `NewTransaction` calls
and mining steps, each block at a position `i > 0` has for `PreviousHash` the
value `hash(chain[i-1])` returns and satisfies
`ValidProof(chain[i-1].Proof, chain[i].Proof)`, and `ValidChain` on the
ledger's chain returns `true`. -/
theorem C4_produced_chain_valid (L : Lib) (b : BlockChain) (h : Produced L b) :
    (∀ (i : Nat) (_ : 0 < i) (hi : i < b.Chain.length),
      hash L (b.Chain.get ⟨i - 1, by omega⟩) = .ok (b.Chain.get ⟨i, hi⟩).PreviousHash ∧
        ValidProof L (b.Chain.get ⟨i - 1, by omega⟩).Proof (b.Chain.get ⟨i, hi⟩).Proof = true) ∧
    ValidChain L b.Chain = .ok true := by
  obtain ⟨hne, hc⟩ := Produced_inv L b h
  exact ⟨(Linked_iff_chain L b.Chain).2 hc, (ValidChain_iff_chain L b.Chain hne).2 hc⟩

/-- C6: `NewBlockChain` does not fail and returns a ledger whose chain is the
single block with `Index` 1, `PreviousHash` "1", `Proof` 100 and no
transactions, with an empty pool and an empty peer set. -/
theorem C6_NewBlockChain_genesis (L : Lib) (now : Now) :
    ∃ b : BlockChain, NewBlockChain L now = .ok b ∧
      b.Chain = [{ Index := 1, Timestamp := now.stamp, Transactions := [], Proof := 100,
                   PreviousHash := "1" }] ∧
      b.Chain.length = 1 ∧ b.CurrentTransactions = [] ∧ b.Nodes = [] :=
  ⟨_, NewBlockChain_eq L now, rfl, rfl, rfl, rfl⟩

theorem NewTransactions_eq :
    ∀ (txs : List Transaction) (b : BlockChain), b.Chain ≠ [] →
      NewTransactions b txs = .ok
        { Chain := b.Chain, CurrentTransactions := b.CurrentTransactions ++ txs,
          Nodes := b.Nodes } := by
  intro txs
  induction txs with
  | nil => intro b _; simp [NewTransactions]
  | cons t ts ih =>
    intro b hne
    obtain ⟨idx, b1, h⟩ := NewTransaction_total b t.Sender t.Recipient t.Amount hne
    obtain ⟨-, hb1⟩ := NewTransaction_spec b _ _ _ idx b1 h
    have e := ih b1 (by rw [hb1]; exact hne)
    simp only [NewTransactions, h]
    rw [e, hb1]
    simp

theorem lastBlock_inRange (b : BlockChain) (previousHash : String) (hne : b.Chain ≠ [])
    (hm : previousHash ≠ "" ∨ ∀ last, LastBlock b = .ok last → yearInRange last.Timestamp = true) :
    previousHash.length ≠ 0 ∨
      ∃ last, b.Chain.getLast? = some last ∧ yearInRange last.Timestamp = true := by
  cases hm with
  | inl h => exact Or.inl (fun hz => h ((String_length_eq_zero _).1 hz))
  | inr h =>
    obtain ⟨last, hl⟩ := getLast?_ne_nil b.Chain hne
    exact Or.inr ⟨last, hl, h last ((LastBlock_ok b last).2 hl)⟩

/-- C7, as amended: on a ledger with a non-empty chain and an empty pool,
where `previousHash` is not empty or the last block's time stamp has a year in
0..9999 (so that `hash` does not panic), adding the transactions of a list one
by one with `NewTransaction` and then calling `NewBlock` succeeds, leaves the
pool empty, and the new block carries exactly those transactions in the order
they were added. -/
theorem C7_pool_drain (L : Lib) (b : BlockChain) (txs : List Transaction) (now : Now)
    (proof : Int) (previousHash : String) (hne : b.Chain ≠ [])
    (hpool : b.CurrentTransactions = [])
    (hm : previousHash ≠ "" ∨
      ∀ last, LastBlock b = .ok last → yearInRange last.Timestamp = true) :
    ∃ (b1 : BlockChain) (block : Block) (b2 : BlockChain),
      NewTransactions b txs = .ok b1 ∧
      NewBlock L b1 now proof previousHash = .ok (block, b2) ∧
      b2.CurrentTransactions = [] ∧ block.Transactions = txs := by
  have h1 := NewTransactions_eq txs b hne
  obtain ⟨block, b2, h2⟩ := NewBlock_total L
    { Chain := b.Chain, CurrentTransactions := b.CurrentTransactions ++ txs, Nodes := b.Nodes }
    now proof previousHash (lastBlock_inRange b previousHash hne hm)
  obtain ⟨-, -, h5, -, -, -, h9⟩ := NewBlock_spec L _ now proof previousHash block b2 h2
  refine ⟨_, block, b2, h1, h2, ?_, ?_⟩
  · rw [h9]
  · rw [h5, hpool]
    simp

/-- C8, as amended: on a ledger with a non-empty chain, where `previousHash`
is not empty or the last block's time stamp has a year in 0..9999 (so that
`hash` does not panic), `NewBlock proof previousHash` succeeds; the block it
returns has `Index` = old chain length + 1, `Transactions` = the old pool,
`Proof` = `proof`, and `PreviousHash` = the argument when it is not empty, the
hash of the old last block when it is empty; the chain afterwards is the old
chain followed by that block. -/
theorem C8_NewBlock_result (L : Lib) (b : BlockChain) (now : Now) (proof : Int)
    (previousHash : String) (hne : b.Chain ≠ [])
    (hm : previousHash ≠ "" ∨
      ∀ last, LastBlock b = .ok last → yearInRange last.Timestamp = true) :
    ∃ (block : Block) (b1 : BlockChain),
      NewBlock L b now proof previousHash = .ok (block, b1) ∧
      block.Index = (b.Chain.length : Int) + 1 ∧
      block.Transactions = b.CurrentTransactions ∧
      block.Proof = proof ∧
      (previousHash ≠ "" → block.PreviousHash = previousHash) ∧
      (previousHash = "" →
        ∃ last, LastBlock b = .ok last ∧ hash L last = .ok block.PreviousHash) ∧
      b1.Chain = b.Chain ++ [block] := by
  obtain ⟨block, b1, h⟩ := NewBlock_total L b now proof previousHash
    (lastBlock_inRange b previousHash hne hm)
  obtain ⟨h1, -, h3, h4, h5, h6, h7⟩ := NewBlock_spec L b now proof previousHash block b1 h
  refine ⟨block, b1, h, h1, h3, h4, ?_, ?_, by rw [h7]⟩
  · intro hp
    exact h5 (fun hz => hp ((String_length_eq_zero _).1 hz))
  · intro hp
    obtain ⟨last, hl, hph⟩ := h6 ((String_length_eq_zero _).2 hp)
    exact ⟨last, (LastBlock_ok b last).2 hl, hph⟩

/-- C2 on the two-block chain of `minedLedger`. -/
theorem C2_ValidChain_iff_witness :
    minedLedger.Chain ≠ [] ∧
      (ValidChain toyLib minedLedger.Chain = .ok true ↔ Linked toyLib minedLedger.Chain) :=
  ⟨by decide, (C2_ValidChain_iff toyLib minedLedger.Chain (by decide)).1⟩

theorem Produced_freshLedger : Produced toyLib freshLedger :=
  Produced.fresh clock0 freshLedger rfl

theorem Produced_minedLedger : Produced toyLib minedLedger :=
  Produced.mine freshLedger 3 clock1 2 genesis secondBlock minedLedger Produced_freshLedger
    rfl (by decide) rfl

/-- C4 on `minedLedger`, produced by one mining step. -/
theorem C4_produced_chain_valid_witness :
    Produced toyLib minedLedger ∧ ValidChain toyLib minedLedger.Chain = .ok true :=
  ⟨Produced_minedLedger, (C4_produced_chain_valid toyLib minedLedger Produced_minedLedger).2⟩

/-- C7 on `freshLedger` with two transactions. -/
theorem C7_pool_drain_witness :
    freshLedger.Chain ≠ [] ∧ freshLedger.CurrentTransactions = [] ∧
      yearInRange genesis.Timestamp = true ∧
      ∃ (b1 : BlockChain) (block : Block) (b2 : BlockChain),
        NewTransactions freshLedger sampleTxs = .ok b1 ∧
        NewBlock toyLib b1 clock1 2 "" = .ok (block, b2) ∧
        b2.CurrentTransactions = [] ∧ block.Transactions = sampleTxs :=
  ⟨by decide, rfl, by decide,
    C7_pool_drain toyLib freshLedger sampleTxs clock1 2 "" (by decide) rfl
      (Or.inr (fun last hl => by cases hl; decide))⟩

/-- C7 as stated fails when `hash` panics: `y10kLedger` has a non-empty chain
and an empty pool, its last block has the time stamp 10000-01-01T00:00:00,
which `json.Marshal` refuses; after the two `NewTransaction` calls,
`NewBlock 2 ""` panics in `hash`, the pool still holds the two transactions
and no block is made. -/
theorem C7_counterexample :
    y10kLedger.Chain ≠ [] ∧ y10kLedger.CurrentTransactions = [] ∧
      NewTransactions y10kLedger sampleTxs =
        .ok { y10kLedger with CurrentTransactions := sampleTxs } ∧
      hash toyLib y10kBlock = .error .marshal ∧
      NewBlock toyLib { y10kLedger with CurrentTransactions := sampleTxs } clock1 2 "" =
        .error .marshal :=
  ⟨by decide, rfl, rfl, rfl, rfl⟩

/-- C8 on `freshLedger` with an empty `previousHash`. -/
theorem C8_NewBlock_result_witness :
    freshLedger.Chain ≠ [] ∧ yearInRange genesis.Timestamp = true ∧
      ∃ (block : Block) (b1 : BlockChain),
        NewBlock toyLib freshLedger clock1 2 "" = .ok (block, b1) ∧
        block.Index = (freshLedger.Chain.length : Int) + 1 ∧
        block.Transactions = freshLedger.CurrentTransactions ∧
        block.Proof = 2 ∧
        (("" : String) ≠ "" → block.PreviousHash = "") ∧
        (("" : String) = "" →
          ∃ last, LastBlock freshLedger = .ok last ∧
            hash toyLib last = .ok block.PreviousHash) ∧
        b1.Chain = freshLedger.Chain ++ [block] :=
  ⟨by decide, by decide,
    C8_NewBlock_result toyLib freshLedger clock1 2 "" (by decide)
      (Or.inr (fun last hl => by cases hl; decide))⟩

/-- C8 as stated fails when `hash` panics: on `y10kLedger`, whose chain is not
empty and whose last block has the time stamp 10000-01-01T00:00:00,
`NewBlock 2 ""` panics in `hash` and returns no block. -/
theorem C8_counterexample :
    y10kLedger.Chain ≠ [] ∧ LastBlock y10kLedger = .ok y10kBlock ∧
      yearInRange y10kBlock.Timestamp = false ∧
      NewBlock toyLib y10kLedger clock1 2 "" = .error .marshal :=
  ⟨by decide, rfl, by decide, rfl⟩

/-! ## Tampering with a previous hash -/

theorem ValidChainLoop_tamper (L : Lib) :
    ∀ (rest : List Block) (lastBlock : Block) (k : Nat) (s : String),
      (∃ block, rest[k]? = some block ∧ s ≠ block.PreviousHash) →
      List.Chain (Link L) lastBlock rest →
      ValidChainLoop L lastBlock (tamper rest k s) = .ok false := by
  intro rest
  induction rest with
  | nil =>
    intro lastBlock k s h
    obtain ⟨block, hb, -⟩ := h
    simp at hb
  | cons b tl ih =>
    intro lastBlock k s h hc
    obtain ⟨block, hb, hs⟩ := h
    rw [List.chain_cons] at hc
    obtain ⟨hlink, hc⟩ := hc
    cases k with
    | zero =>
      simp at hb
      subst hb
      simp [tamper, ValidChainLoop, hlink.1, hs]
    | succ j =>
      simp at hb
      have hrec := ih b j s ⟨block, hb, hs⟩ hc
      simp only [tamper, ValidChainLoop]
      simp [hlink.1, hlink.2, hrec]

/-- C5, as amended: in a ledger-produced chain, replacing the `PreviousHash`
of a block at a position `k ≥ 1` by a different string makes `ValidChain`
return `false`; at position `k = 0` it does so when the chain has at least
two blocks and the altered first block has another hash than the original. -/
theorem C5_tampered_rejected (L : Lib) (b : BlockChain) (hp : Produced L b) (k : Nat)
    (hk : k < b.Chain.length) (s : String)
    (hs : s ≠ (b.Chain.get ⟨k, hk⟩).PreviousHash)
    (hpos : 1 ≤ k ∨ (2 ≤ b.Chain.length ∧
      hash L { b.Chain.get ⟨k, hk⟩ with PreviousHash := s } ≠ hash L (b.Chain.get ⟨k, hk⟩))) :
    ValidChain L (tamper b.Chain k s) = .ok false := by
  obtain ⟨-, hc⟩ := Produced_inv L b hp
  generalize b.Chain = chain at hk hs hpos hc
  cases chain with
  | nil => simp at hk
  | cons b0 rest =>
    cases k with
    | succ j =>
      have hj : j < rest.length := by simpa using hk
      simp only [tamper, ValidChain]
      refine ValidChainLoop_tamper L rest b0 j s ⟨rest.get ⟨j, hj⟩, ?_, ?_⟩ hc
      · simp
      · simpa using hs
    | zero =>
      cases hpos with
      | inl h => omega
      | inr h =>
        obtain ⟨hlen, hh⟩ := h
        cases rest with
        | nil => simp at hlen
        | cons b1 tl =>
          rw [List.chain'_cons] at hc
          have hh0 : hash L b0 = .ok b1.PreviousHash := hc.1.1
          have hy : yearInRange ({ b0 with PreviousHash := s } : Block).Timestamp = true :=
            inRange_of_hash_ok L b0 _ hh0
          obtain ⟨ph, hph⟩ := hash_ok_of_inRange L { b0 with PreviousHash := s } hy
          have hne : b1.PreviousHash ≠ ph := by
            intro e
            apply hh
            simp only [List.get_eq_getElem, List.getElem_cons_zero]
            rw [hph, hh0, e]
          simp [tamper, ValidChain, ValidChainLoop, hph, hne]

/-- C5 on `minedLedger`, at position 1. -/
theorem C5_tampered_rejected_witness :
    Produced toyLib minedLedger ∧ "x" ≠ secondBlock.PreviousHash ∧
      ValidChain toyLib (tamper minedLedger.Chain 1 "x") = .ok false :=
  ⟨Produced_minedLedger, by decide,
    C5_tampered_rejected toyLib minedLedger Produced_minedLedger 1 (by decide) "x" (by decide)
      (Or.inl (le_refl 1))⟩

/-- C5 as stated fails at position 0 of a one-block chain: on the fresh
ledger, whose genesis block has `PreviousHash` "1", the copy with "2" in its
place is still accepted by `ValidChain` (no pair of blocks is tested). -/
theorem C5_counterexample :
    Produced toyLib freshLedger ∧ 0 < freshLedger.Chain.length ∧
      "2" ≠ genesis.PreviousHash ∧
      tamper freshLedger.Chain 0 "2" = [{ genesis with PreviousHash := "2" }] ∧
      ValidChain toyLib (tamper freshLedger.Chain 0 "2") = .ok true :=
  ⟨Produced.fresh clock0 freshLedger rfl, by decide, by decide, rfl, rfl⟩

/-- Why position 0 of a longer chain needs the altered block to hash
differently: under the stand-in digest of `toyLib` the genesis block with
"6" for "1" has the same hash, and the altered two-block chain is accepted. -/
theorem tamper_genesis_collision :
    hash toyLib { genesis with PreviousHash := "6" } = hash toyLib genesis ∧
      ValidChain toyLib (tamper minedLedger.Chain 0 "6") = .ok true :=
  ⟨rfl, rfl⟩

/-! ## Reachable ledgers and the announced index -/

theorem RegisterNode_chain (b : BlockChain) (address : String) :
    (RegisterNode b address).Chain = b.Chain ∧
      (RegisterNode b address).CurrentTransactions = b.CurrentTransactions := by
  unfold RegisterNode
  cases b.Nodes.lookup address <;> exact ⟨rfl, rfl⟩

theorem ResolveConflicts_spec (L : Lib) (b : BlockChain) (scan : List String)
    (fetch : String → Response) (replaced : Bool) (b1 : BlockChain)
    (h : ResolveConflicts L b scan fetch = .ok (replaced, b1)) :
    (replaced = false ∧ b1 = b) ∨
      (replaced = true ∧ b1.Chain ≠ [] ∧
        b1 = { Chain := b1.Chain, CurrentTransactions := b.CurrentTransactions,
               Nodes := b.Nodes }) := by
  unfold ResolveConflicts at h
  cases hl : ResolveLoop L fetch scan (b.Chain.length : Int) [] with
  | error e => simp [hl] at h
  | ok r =>
    obtain ⟨m, newChain⟩ := r
    simp only [hl] at h
    by_cases hn : newChain.length ≠ 0
    · rw [if_pos hn] at h
      simp only [Except.ok.injEq, Prod.mk.injEq] at h
      obtain ⟨rfl, rfl⟩ := h
      refine Or.inr ⟨rfl, ?_, rfl⟩
      intro hc
      exact hn (by simpa using congrArg List.length hc)
    · rw [if_neg hn] at h
      simp only [Except.ok.injEq, Prod.mk.injEq] at h
      obtain ⟨rfl, rfl⟩ := h
      exact Or.inl ⟨rfl, rfl⟩

theorem ResolveLoop_inRange (L : Lib) (fetch : String → Response) :
    ∀ (scan : List String) (m : Int) (c : List Block) (m1 : Int) (c1 : List Block),
      ResolveLoop L fetch scan m c = .ok (m1, c1) →
      (∀ block ∈ c, yearInRange block.Timestamp = true) →
      ∀ block ∈ c1, yearInRange block.Timestamp = true := by
  intro scan
  induction scan with
  | nil =>
    intro m c m1 c1 h hc
    simp only [ResolveLoop, Except.ok.injEq, Prod.mk.injEq] at h
    rw [← h.2]
    exact hc
  | cons node rest ih =>
    intro m c m1 c1 h hc
    cases hf : fetch (node ++ "/chain") with
    | transportError => simp [ResolveLoop, hf] at h
    | status code data =>
      simp only [ResolveLoop, hf] at h
      by_cases hcode : code ≠ 200
      · rw [if_pos hcode] at h
        exact ih m c m1 c1 h hc
      · rw [if_neg hcode] at h
        by_cases hlen : data.Length > m
        · rw [if_pos hlen] at h
          cases hv : ValidChain L data.Chain with
          | error e => simp [hv] at h
          | ok r =>
            cases r with
            | true =>
              simp only [hv] at h
              exact ih _ _ m1 c1 h data.decoded
            | false =>
              simp only [hv] at h
              exact ih m c m1 c1 h hc
        · rw [if_neg hlen] at h
          exact ih m c m1 c1 h hc

theorem ResolveConflicts_inRange (L : Lib) (b : BlockChain) (scan : List String)
    (fetch : String → Response) (replaced : Bool) (b1 : BlockChain)
    (h : ResolveConflicts L b scan fetch = .ok (replaced, b1))
    (hb : ∀ block ∈ b.Chain, yearInRange block.Timestamp = true) :
    ∀ block ∈ b1.Chain, yearInRange block.Timestamp = true := by
  unfold ResolveConflicts at h
  cases hl : ResolveLoop L fetch scan (b.Chain.length : Int) [] with
  | error e => simp [hl] at h
  | ok r =>
    obtain ⟨m, newChain⟩ := r
    simp only [hl] at h
    have hr := ResolveLoop_inRange L fetch scan _ [] m newChain hl (fun x hx => by simp at hx)
    by_cases hn : newChain.length ≠ 0
    · rw [if_pos hn] at h
      simp only [Except.ok.injEq, Prod.mk.injEq] at h
      rw [← h.2]
      exact hr
    · rw [if_neg hn] at h
      simp only [Except.ok.injEq, Prod.mk.injEq] at h
      rw [← h.2]
      exact hb

theorem Reachable_inRange (L : Lib) (adoptable : List Block → Prop) (b : BlockChain)
    (h : Reachable L adoptable b) : ∀ block ∈ b.Chain, yearInRange block.Timestamp = true := by
  induction h with
  | fresh now b hb =>
    rw [NewBlockChain_eq] at hb
    cases hb
    intro block hmem
    simp only [List.mem_singleton] at hmem
    rw [hmem]
    exact now.inRange
  | newTransaction b sender recipient amount idx b1 _ ht ih =>
    obtain ⟨-, rfl⟩ := NewTransaction_spec b sender recipient amount idx b1 ht
    exact ih
  | newBlock b now proof previousHash block b1 _ hb ih =>
    obtain ⟨-, h2, -, -, -, -, rfl⟩ := NewBlock_spec L b now proof previousHash block b1 hb
    intro x hx
    rcases List.mem_append.1 hx with h | h
    · exact ih x h
    · simp only [List.mem_singleton] at h
      rw [h, h2]
      exact now.inRange
  | registerNode b address _ ih =>
    rw [(RegisterNode_chain b address).1]
    exact ih
  | resolveConflicts b scan fetch replaced b1 _ _ hr _ ih =>
    exact ResolveConflicts_inRange L b scan fetch replaced b1 hr ih

theorem Reachable_nonempty (L : Lib) (adoptable : List Block → Prop) (b : BlockChain)
    (h : Reachable L adoptable b) : b.Chain ≠ [] := by
  induction h with
  | fresh now b hb =>
    rw [NewBlockChain_eq] at hb
    cases hb
    simp
  | newTransaction b sender recipient amount idx b1 _ ht ih =>
    obtain ⟨-, rfl⟩ := NewTransaction_spec b sender recipient amount idx b1 ht
    exact ih
  | newBlock b now proof previousHash block b1 _ hb _ =>
    obtain ⟨-, -, -, -, -, -, rfl⟩ := NewBlock_spec L b now proof previousHash block b1 hb
    simp
  | registerNode b address _ ih =>
    rw [(RegisterNode_chain b address).1]
    exact ih
  | resolveConflicts b scan fetch replaced b1 _ _ hr _ ih =>
    rcases ResolveConflicts_spec L b scan fetch replaced b1 hr with ⟨-, rfl⟩ | ⟨-, hne, -⟩
    · exact ih
    · exact hne

theorem Reachable_wellNumbered (L : Lib) (b : BlockChain)
    (h : Reachable L WellNumbered b) : WellNumbered b.Chain := by
  induction h with
  | fresh now b hb =>
    rw [NewBlockChain_eq] at hb
    cases hb
    intro last hl
    simp at hl
    subst hl
    rfl
  | newTransaction b sender recipient amount idx b1 _ ht ih =>
    obtain ⟨-, rfl⟩ := NewTransaction_spec b sender recipient amount idx b1 ht
    exact ih
  | newBlock b now proof previousHash block b1 _ hb _ =>
    obtain ⟨h1, -, -, -, -, -, rfl⟩ := NewBlock_spec L b now proof previousHash block b1 hb
    intro last hl
    simp at hl
    subst hl
    simp [h1]
  | registerNode b address _ ih =>
    rw [(RegisterNode_chain b address).1]
    exact ih
  | resolveConflicts b scan fetch replaced b1 _ _ hr ha ih =>
    rcases ResolveConflicts_spec L b scan fetch replaced b1 hr with ⟨-, rfl⟩ | ⟨ht, -, -⟩
    · exact ih
    · exact ha ht

/-- C9, as amended: in every ledger reached from a fresh one by
`NewTransaction`, `NewBlock`, `RegisterNode` and `ResolveConflicts`, where each
chain adopted from a peer numbers its last block with its own length, and
whose chain length is below the largest `int`, `NewTransaction` succeeds and
returns the chain length + 1, which is the `Index` of the block the next
`NewBlock` call creates, and that block contains the transaction. -/
theorem C9_NewTransaction_index (L : Lib) (b : BlockChain) (h : Reachable L WellNumbered b)
    (hlen : (b.Chain.length : Int) + 1 < 2 ^ 63) (sender recipient : String) (amount : Int) :
    ∃ b1 : BlockChain,
      NewTransaction b sender recipient amount = .ok ((b.Chain.length : Int) + 1, b1) ∧
      ∀ (now : Now) (proof : Int) (previousHash : String),
        ∃ (block : Block) (b2 : BlockChain),
          NewBlock L b1 now proof previousHash = .ok (block, b2) ∧
          block.Index = (b.Chain.length : Int) + 1 ∧
          ({ Sender := sender, Recipient := recipient, Amount := amount } : Transaction) ∈
            block.Transactions := by
  have hne := Reachable_nonempty L WellNumbered b h
  have hin := Reachable_inRange L WellNumbered b h
  have hw := Reachable_wellNumbered L b h
  obtain ⟨idx, b1, ht⟩ := NewTransaction_total b sender recipient amount hne
  obtain ⟨⟨last, hl, hidx⟩, hb1⟩ := NewTransaction_spec b sender recipient amount idx b1 ht
  have hi : idx = (b.Chain.length : Int) + 1 := by
    rw [hidx, hw last hl]
    exact wrapInt64_succ _ (by omega) hlen
  have hc1 : b1.Chain = b.Chain := by rw [hb1]
  refine ⟨b1, by rw [ht, hi], ?_⟩
  intro now proof previousHash
  obtain ⟨block, b2, hb⟩ := NewBlock_total L b1 now proof previousHash
    (Or.inr ⟨last, by rw [hc1]; exact hl, hin last (List.mem_of_getLast?_eq_some hl)⟩)
  obtain ⟨h1, -, h3, -, -, -, -⟩ := NewBlock_spec L b1 now proof previousHash block b2 hb
  refine ⟨block, b2, hb, by rw [h1, hc1], ?_⟩
  rw [h3, hb1]
  simp

/-- C9 on the fresh ledger: the announced index is 2. -/
theorem C9_NewTransaction_index_witness :
    Reachable toyLib WellNumbered freshLedger ∧
      (freshLedger.Chain.length : Int) + 1 < 2 ^ 63 ∧
      ∃ b1 : BlockChain,
        NewTransaction freshLedger "alice" "bob" 3 =
          .ok ((freshLedger.Chain.length : Int) + 1, b1) ∧
        ∀ (now : Now) (proof : Int) (previousHash : String),
          ∃ (block : Block) (b2 : BlockChain),
            NewBlock toyLib b1 now proof previousHash = .ok (block, b2) ∧
            block.Index = (freshLedger.Chain.length : Int) + 1 ∧
            ({ Sender := "alice", Recipient := "bob", Amount := 3 } : Transaction) ∈
              block.Transactions :=
  ⟨Reachable.fresh clock0 freshLedger rfl, by decide,
    C9_NewTransaction_index toyLib freshLedger (Reachable.fresh clock0 freshLedger rfl)
      (by decide) "alice" "bob" 3⟩

/-- C9 as stated fails after `ResolveConflicts`: the fresh ledger registers
peer `a` and adopts its one-block chain `[forgedBlock]` (reported `Length` 5,
`Index` 7, accepted by `ValidChain` because no pair of blocks is tested). The
chain length is then 1, `NewTransaction` returns 8, and the block the next
`NewBlock` creates has `Index` 2. -/
theorem C9_counterexample :
    Reachable toyLib anyChain forgedLedger ∧
      forgedLedger.Chain.length = 1 ∧
      NewTransaction forgedLedger "alice" "bob" 3 =
        .ok (8, { forgedLedger with
                    CurrentTransactions := [{ Sender := "alice", Recipient := "bob", Amount := 3 }] }) ∧
      (NewBlock toyLib forgedLedger clock1 0 "p").map (fun r => r.1.Index) = .ok 2 :=
  ⟨Reachable.resolveConflicts (RegisterNode freshLedger "a") ["a"] forgedPeer true forgedLedger
      (Reachable.registerNode freshLedger "a" (Reachable.fresh clock0 freshLedger rfl))
      (List.Perm.refl _) rfl (fun _ => trivial),
    rfl, rfl, rfl⟩

/-! ## Conflict resolution -/

theorem Answers_zero (fetch : String → Response) (node : String) (rest : List String)
    (d0 data : Payload) (h0 : fetch (node ++ "/chain") = .status 200 d0)
    (h : Answers fetch (node :: rest) 0 data) : data = d0 := by
  obtain ⟨n, hn, hf⟩ := h
  simp at hn
  subst hn
  rw [h0] at hf
  cases hf
  rfl

theorem Answers_succ (fetch : String → Response) (node : String) (rest : List String)
    (j : Nat) (data : Payload) :
    Answers fetch (node :: rest) (j + 1) data ↔ Answers fetch rest j data := by
  simp [Answers]

theorem ResolveLoop_step (L : Lib) (fetch : String → Response) (node : String)
    (rest : List String) (m : Int) (c : List Block) (d0 : Payload)
    (h0 : fetch (node ++ "/chain") = .status 200 d0) (hne : d0.Chain ≠ []) :
    (Qualifies L m d0 ∧
      ResolveLoop L fetch (node :: rest) m c = ResolveLoop L fetch rest d0.Length d0.Chain) ∨
    (¬ Qualifies L m d0 ∧
      ResolveLoop L fetch (node :: rest) m c = ResolveLoop L fetch rest m c) := by
  obtain ⟨r, hr⟩ := ValidChain_ok L d0.Chain hne d0.decoded
  by_cases hlen : d0.Length > m
  · cases r with
    | true =>
      left
      refine ⟨⟨hlen, hr⟩, ?_⟩
      simp [ResolveLoop, h0, hlen, hr]
    | false =>
      right
      refine ⟨fun hq => ?_, ?_⟩
      · rw [hq.2] at hr
        cases hr
      · simp [ResolveLoop, h0, hlen, hr]
  · right
    refine ⟨fun hq => hlen hq.1, ?_⟩
    simp [ResolveLoop, h0, hlen]

theorem ResolveLoop_select (L : Lib) (fetch : String → Response) :
    ∀ (scan : List String) (m : Int) (c : List Block),
      (∀ node ∈ scan, ∃ data, fetch (node ++ "/chain") = .status 200 data ∧ data.Chain ≠ []) →
      ((∀ (j : Nat) (other : Payload), Answers fetch scan j other → ¬ Qualifies L m other) ∧
        ResolveLoop L fetch scan m c = .ok (m, c)) ∨
      (∃ (i : Nat) (data : Payload), BestAt L fetch scan m i data ∧
        ResolveLoop L fetch scan m c = .ok (data.Length, data.Chain)) := by
  intro scan
  induction scan with
  | nil =>
    intro m c _
    left
    refine ⟨?_, rfl⟩
    intro j other h
    obtain ⟨n, hn, -⟩ := h
    simp at hn
  | cons node rest ih =>
    intro m c hall
    obtain ⟨d0, h0, hne⟩ := hall node (List.mem_cons_self _ _)
    have hrest : ∀ n ∈ rest, ∃ data, fetch (n ++ "/chain") = .status 200 data ∧ data.Chain ≠ [] :=
      fun n hn => hall n (List.mem_cons_of_mem _ hn)
    rcases ResolveLoop_step L fetch node rest m c d0 h0 hne with ⟨hq, hstep⟩ | ⟨hq, hstep⟩
    · right
      rcases ih d0.Length d0.Chain hrest with ⟨hnone, hres⟩ | ⟨i, data, ⟨ha, hqd, hbest⟩, hres⟩
      · refine ⟨0, d0, ⟨⟨node, by simp, h0⟩, hq, ?_⟩, by rw [hstep, hres]⟩
        intro j other hj hqo
        cases j with
        | zero =>
          rw [Answers_zero fetch node rest d0 other h0 hj]
          exact ⟨le_refl _, fun h => absurd h (lt_irrefl 0)⟩
        | succ j1 =>
          rw [Answers_succ] at hj
          refine ⟨?_, fun h => absurd h (Nat.not_lt_zero _)⟩
          by_contra hgt
          exact hnone j1 other hj ⟨by omega, hqo.2⟩
      · refine ⟨i + 1, data, ⟨(Answers_succ fetch node rest i data).2 ha, ?_, ?_⟩,
          by rw [hstep, hres]⟩
        · exact ⟨lt_trans hq.1 hqd.1, hqd.2⟩
        · intro j other hj hqo
          cases j with
          | zero =>
            rw [Answers_zero fetch node rest d0 other h0 hj]
            have := hqd.1
            exact ⟨by omega, fun _ => by omega⟩
          | succ j1 =>
            rw [Answers_succ] at hj
            by_cases hgt : other.Length > d0.Length
            · obtain ⟨h1, h2⟩ := hbest j1 other hj ⟨hgt, hqo.2⟩
              exact ⟨h1, fun h => h2 (by omega)⟩
            · have := hqd.1
              exact ⟨by omega, fun _ => by omega⟩
    · rcases ih m c hrest with ⟨hnone, hres⟩ | ⟨i, data, ⟨ha, hqd, hbest⟩, hres⟩
      · left
        refine ⟨?_, by rw [hstep, hres]⟩
        intro j other hj
        cases j with
        | zero =>
          rw [Answers_zero fetch node rest d0 other h0 hj]
          exact hq
        | succ j1 =>
          rw [Answers_succ] at hj
          exact hnone j1 other hj
      · right
        refine ⟨i + 1, data, ⟨(Answers_succ fetch node rest i data).2 ha, hqd, ?_⟩,
          by rw [hstep, hres]⟩
        intro j other hj hqo
        cases j with
        | zero =>
          rw [Answers_zero fetch node rest d0 other h0 hj] at hqo
          exact absurd hqo hq
        | succ j1 =>
          rw [Answers_succ] at hj
          obtain ⟨h1, h2⟩ := hbest j1 other hj hqo
          exact ⟨h1, fun h => h2 (by omega)⟩

/-- When every peer of the scan answers with status 200 and a non-empty
chain, and some answer qualifies above the local chain length,
`ResolveConflicts` returns `true` and installs the chain of the qualifying
answer with the greatest reported length, the first such in scan order. -/
theorem ResolveConflicts_adopts_longest (L : Lib) (b : BlockChain) (scan : List String)
    (fetch : String → Response)
    (hall : ∀ node ∈ scan, ∃ data, fetch (node ++ "/chain") = .status 200 data ∧ data.Chain ≠ [])
    (hq : ∃ (j : Nat) (other : Payload), Answers fetch scan j other ∧
      Qualifies L (b.Chain.length : Int) other) :
    ∃ (i : Nat) (data : Payload), BestAt L fetch scan (b.Chain.length : Int) i data ∧
      ResolveConflicts L b scan fetch = .ok (true, { b with Chain := data.Chain }) := by
  rcases ResolveLoop_select L fetch scan (b.Chain.length : Int) [] hall with
    ⟨hnone, -⟩ | ⟨i, data, hbest, hres⟩
  · obtain ⟨j, other, hj, hqo⟩ := hq
    exact absurd hqo (hnone j other hj)
  · refine ⟨i, data, hbest, ?_⟩
    have hne : data.Chain.length ≠ 0 := by
      intro hz
      have hnil : data.Chain = [] := List.length_eq_zero.1 hz
      have hv := hbest.2.1.2
      rw [hnil] at hv
      cases hv
    unfold ResolveConflicts
    simp only [hres]
    rw [if_pos hne]

/-- The selection of `ResolveConflicts_adopts_longest` on the fresh ledger
with the single peer `forgedPeer`. -/
theorem ResolveConflicts_adopts_longest_witness :
    ∃ (i : Nat) (data : Payload), BestAt toyLib forgedPeer ["a"] 1 i data ∧
      ResolveConflicts toyLib freshLedger ["a"] forgedPeer =
        .ok (true, { freshLedger with Chain := data.Chain }) :=
  ResolveConflicts_adopts_longest toyLib freshLedger ["a"] forgedPeer
    (fun _ _ => ⟨_, rfl, by decide⟩)
    ⟨0, _, ⟨"a", rfl, rfl⟩, by decide, rfl⟩

/-- C10 fails on the code when a peer answers with an empty chain: on the
fresh ledger (chain length 1) with peers `a` (empty chain, `Length` 5) and `b`
(chain `[genesis]`, `Length` 2, accepted by `ValidChain`), both answering with
status 200, `ResolveConflicts` fails at `chain[0]` inside `ValidChain` while
visiting `a`, instead of returning `true` with the chain of `b`. -/
theorem C10_empty_chain_peer_fails :
    emptyChainPeers ("a" ++ "/chain") = .status 200 { Chain := [], Length := 5 } ∧
      emptyChainPeers ("b" ++ "/chain") = .status 200 { Chain := [genesis], Length := 2 } ∧
      Qualifies toyLib (freshLedger.Chain.length : Int) { Chain := [genesis], Length := 2 } ∧
      ResolveConflicts toyLib freshLedger ["a", "b"] emptyChainPeers = .error .indexOutOfRange :=
  ⟨rfl, rfl, ⟨by decide, rfl⟩, rfl⟩

/-- C11: when every peer of the scan answers with status 200 and a non-empty
chain, and no answer both reports a `Length` above the local chain length and
carries a chain `ValidChain` accepts, `ResolveConflicts` returns `false` and
the ledger (chain, pool and peer set) is unchanged. -/
theorem C11_no_qualifying_peer (L : Lib) (b : BlockChain) (scan : List String)
    (fetch : String → Response)
    (hall : ∀ node ∈ scan, ∃ data, fetch (node ++ "/chain") = .status 200 data ∧ data.Chain ≠ [])
    (hnone : ∀ (j : Nat) (other : Payload), Answers fetch scan j other →
      ¬ Qualifies L (b.Chain.length : Int) other) :
    ResolveConflicts L b scan fetch = .ok (false, b) := by
  rcases ResolveLoop_select L fetch scan (b.Chain.length : Int) [] hall with
    ⟨-, hres⟩ | ⟨i, data, hbest, -⟩
  · unfold ResolveConflicts
    simp [hres]
  · exact absurd hbest.2.1 (hnone i data hbest.1)

/-- C11 on the fresh ledger with one peer that reports `Length` 5 and sends a
two-block chain with a tampered previous hash. -/
theorem C11_no_qualifying_peer_witness :
    ValidChain toyLib (tamper minedLedger.Chain 1 "x") = .ok false ∧
      ResolveConflicts toyLib freshLedger ["a"] tamperedPeer = .ok (false, freshLedger) :=
  ⟨rfl, C11_no_qualifying_peer toyLib freshLedger ["a"] tamperedPeer
    (fun _ _ => ⟨_, rfl, by decide⟩)
    (fun j other hj hq => by
      obtain ⟨node, -, hf⟩ := hj
      have e : other = { Chain := tamper minedLedger.Chain 1 "x", Length := 5 } := by
        simp only [tamperedPeer, Response.status.injEq, true_and] at hf
        exact hf.symm
      rw [e] at hq
      have hv := hq.2
      cases hv)⟩

theorem ResolveLoop_filter (L : Lib) (fetch : String → Response) :
    ∀ (scan : List String) (m : Int) (c : List Block),
      ResolveLoop L fetch (withoutNonSuccess fetch scan) m c = ResolveLoop L fetch scan m c := by
  intro scan
  induction scan with
  | nil => intro m c; rfl
  | cons node rest ih =>
    intro m c
    unfold withoutNonSuccess at ih ⊢
    cases hf : fetch (node ++ "/chain") with
    | transportError =>
      simp [List.filter, hf, nonSuccess, ResolveLoop]
    | status code data =>
      by_cases hc : code = 200
      · subst hc
        simp only [List.filter, hf, nonSuccess, ResolveLoop]
        simp only [ne_eq, not_true_eq_false, decide_False, Bool.not_false, if_false]
        by_cases hlen : data.Length > m
        · simp only [hlen, if_true]
          cases hv : ValidChain L data.Chain with
          | error e => rfl
          | ok r =>
            cases r with
            | true => exact ih _ _
            | false => exact ih _ _
        · simp only [hlen, if_false]
          exact ih _ _
      · simp only [List.filter, hf, nonSuccess, ResolveLoop]
        simp only [ne_eq, hc, not_false_eq_true, decide_True, Bool.not_true, if_true]
        exact ih _ _

theorem ResolveLoop_transport (L : Lib) (fetch : String → Response) (bad : String)
    (hbad : fetch (bad ++ "/chain") = .transportError) :
    ∀ (scan : List String), bad ∈ scan → ∀ (m : Int) (c : List Block),
      ∃ e, ResolveLoop L fetch scan m c = .error e := by
  intro scan
  induction scan with
  | nil => intro h; simp at h
  | cons node rest ih =>
    intro hmem m c
    cases hf : fetch (node ++ "/chain") with
    | transportError => exact ⟨.transport, by simp [ResolveLoop, hf]⟩
    | status code data =>
      have hrest : bad ∈ rest := by
        rcases List.mem_cons.1 hmem with h | h
        · subst h
          rw [hbad] at hf
          cases hf
        · exact h
      simp only [ResolveLoop, hf]
      by_cases hc : code ≠ 200
      · rw [if_pos hc]
        exact ih hrest m c
      · rw [if_neg hc]
        by_cases hlen : data.Length > m
        · rw [if_pos hlen]
          cases hv : ValidChain L data.Chain with
          | error e => exact ⟨e, rfl⟩
          | ok r =>
            cases r with
            | true => exact ih hrest _ _
            | false => exact ih hrest m c
        · rw [if_neg hlen]
          exact ih hrest m c

/-- C12, as amended: a peer that answers with a status other than 200 is
passed over, the outcome of `ResolveConflicts` being the one it has on the
scan without such peers; a peer whose fetch fails with a transport error is
not passed over: `ResolveConflicts` then ends in a failure instead of a
result. -/
theorem C12_non_success_skipped (L : Lib) (b : BlockChain) (scan : List String)
    (fetch : String → Response) :
    ResolveConflicts L b scan fetch =
        ResolveConflicts L b (withoutNonSuccess fetch scan) fetch ∧
      (∀ node ∈ scan, fetch (node ++ "/chain") = .transportError →
        ∃ e, ResolveConflicts L b scan fetch = .error e) := by
  constructor
  · unfold ResolveConflicts
    rw [ResolveLoop_filter]
  · intro node hmem hbad
    obtain ⟨e, he⟩ := ResolveLoop_transport L fetch node hbad scan hmem (b.Chain.length : Int) []
    exact ⟨e, by simp [ResolveConflicts, he]⟩

/-- C12 as stated fails for a transport error: on the fresh ledger with the
unreachable peer `a` followed by peer `b`, whose one-block chain with `Length`
2 is adopted when `b` is asked alone, `ResolveConflicts` ends in the failure
`panic(err)` raised at `a`. -/
theorem C12_counterexample :
    unreachablePeers ("a" ++ "/chain") = .transportError ∧
      ResolveConflicts toyLib freshLedger ["b"] unreachablePeers =
        .ok (true, { freshLedger with Chain := [genesis] }) ∧
      ResolveConflicts toyLib freshLedger ["a", "b"] unreachablePeers = .error .transport :=
  ⟨rfl, rfl, rfl⟩

theorem ResolveLoop_empty_chain (L : Lib) (fetch : String → Response) (node : String)
    (rest : List String) (m : Int) (c : List Block) (data : Payload)
    (hf : fetch (node ++ "/chain") = .status 200 data) (hempty : data.Chain = []) :
    ResolveLoop L fetch (node :: rest) m c =
      if data.Length > m then .error .indexOutOfRange else ResolveLoop L fetch rest m c := by
  simp only [ResolveLoop, hf, hempty, ValidChain]
  simp

/-- C13 fails on the code: on the fresh ledger (chain length 1) a peer that
answers with status 200, an empty chain and `Length` 5 is not passed over;
`ResolveConflicts` fails at `chain[0]` inside `ValidChain`. -/
theorem C13_empty_chain_not_skipped :
    emptyChainPeer ("a" ++ "/chain") = .status 200 { Chain := [], Length := 5 } ∧
      ResolveConflicts toyLib freshLedger ["a"] emptyChainPeer = .error .indexOutOfRange :=
  ⟨rfl, rfl⟩

/-! ## Invariants of the reachable ledgers -/

theorem Numbered_append (chain : List Block) (block : Block) (hn : Numbered chain)
    (hb : block.Index = (chain.length : Int) + 1) : Numbered (chain ++ [block]) := by
  intro i blk hi
  by_cases hlt : i < chain.length
  · rw [List.getElem?_append_left hlt] at hi
    exact hn i blk hi
  · have hge : chain.length ≤ i := by omega
    rw [List.getElem?_append_right hge] at hi
    have hz : i - chain.length = 0 := by
      by_contra hne
      have : ([block] : List Block)[i - chain.length]? = none := by
        apply List.getElem?_eq_none
        simp
        omega
      rw [this] at hi
      cases hi
    rw [hz] at hi
    simp at hi
    subst hi
    have : i = chain.length := by omega
    rw [hb, this]

theorem Reachable_numbered (L : Lib) (b : BlockChain) (h : Reachable L Numbered b) :
    Numbered b.Chain := by
  induction h with
  | fresh now b hb =>
    rw [NewBlockChain_eq] at hb
    cases hb
    exact Numbered_append [] _ (fun i blk hi => by simp at hi) rfl
  | newTransaction b sender recipient amount idx b1 _ ht ih =>
    obtain ⟨-, rfl⟩ := NewTransaction_spec b sender recipient amount idx b1 ht
    exact ih
  | newBlock b now proof previousHash block b1 _ hb ih =>
    obtain ⟨h1, -, -, -, -, -, rfl⟩ := NewBlock_spec L b now proof previousHash block b1 hb
    exact Numbered_append b.Chain block ih h1
  | registerNode b address _ ih =>
    rw [(RegisterNode_chain b address).1]
    exact ih
  | resolveConflicts b scan fetch replaced b1 _ _ hr ha ih =>
    rcases ResolveConflicts_spec L b scan fetch replaced b1 hr with ⟨-, rfl⟩ | ⟨ht, -, -⟩
    · exact ih
    · exact ha ht

/-- C14, as amended: in every ledger reached from a fresh one by
`NewTransaction`, `NewBlock`, `RegisterNode` and `ResolveConflicts`, where each
chain adopted from a peer numbers its blocks 1, 2, 3, ... by position,
`chain[0].Index` is 1 and `chain[i].Index = chain[i-1].Index + 1` for every
`i > 0`. -/
theorem C14_indices_consecutive (L : Lib) (b : BlockChain) (h : Reachable L Numbered b) :
    (∃ h0 : 0 < b.Chain.length, (b.Chain.get ⟨0, h0⟩).Index = 1) ∧
      ∀ (i : Nat) (_ : 0 < i) (hi : i < b.Chain.length),
        (b.Chain.get ⟨i, hi⟩).Index = (b.Chain.get ⟨i - 1, by omega⟩).Index + 1 := by
  have hn := Reachable_numbered L b h
  have hne := Reachable_nonempty L Numbered b h
  have hpos : 0 < b.Chain.length := List.length_pos.2 hne
  have key : ∀ (i : Nat) (hi : i < b.Chain.length), (b.Chain.get ⟨i, hi⟩).Index = (i : Int) + 1 := by
    intro i hi
    apply hn i
    simp [List.getElem?_eq_getElem hi]
  refine ⟨⟨hpos, by simpa using key 0 hpos⟩, ?_⟩
  intro i h0 hi
  rw [key i hi, key (i - 1) (by omega)]
  omega

theorem Reachable_forgedLedger : Reachable toyLib anyChain forgedLedger :=
  Reachable.resolveConflicts (RegisterNode freshLedger "a") ["a"] forgedPeer true forgedLedger
    (Reachable.registerNode freshLedger "a" (Reachable.fresh clock0 freshLedger rfl))
    (List.Perm.refl _) rfl (fun _ => trivial)

theorem Reachable_minedNumbered : Reachable toyLib Numbered minedLedger :=
  Reachable.newBlock freshLedger clock1 2 "" secondBlock minedLedger
    (Reachable.fresh clock0 freshLedger rfl) rfl

/-- C14 on `minedLedger`: its two blocks carry the indices 1 and 2. -/
theorem C14_indices_consecutive_witness :
    Reachable toyLib Numbered minedLedger ∧
      (∃ h0 : 0 < minedLedger.Chain.length, (minedLedger.Chain.get ⟨0, h0⟩).Index = 1) ∧
      ∀ (i : Nat) (_ : 0 < i) (hi : i < minedLedger.Chain.length),
        (minedLedger.Chain.get ⟨i, hi⟩).Index =
          (minedLedger.Chain.get ⟨i - 1, by omega⟩).Index + 1 :=
  ⟨Reachable_minedNumbered, C14_indices_consecutive toyLib minedLedger Reachable_minedNumbered⟩

/-- C14 as stated fails after `ResolveConflicts`: `forgedLedger`, reached by
registering peer `a` and adopting its one-block chain, has `chain[0].Index`
equal to 7. -/
theorem C14_counterexample :
    Reachable toyLib anyChain forgedLedger ∧
      forgedLedger.Chain.head? = some forgedBlock ∧ forgedBlock.Index = 7 ∧
      forgedBlock.Index ≠ 1 :=
  ⟨Reachable_forgedLedger, rfl, rfl, by decide⟩

/-- C15: in every ledger reached from a fresh one by `NewTransaction`,
`NewBlock`, `RegisterNode` and `ResolveConflicts`, whatever the peers answer,
the chain has at least one block, and `LastBlock` and `NewTransaction` return
without an index failure. -/
theorem C15_chain_never_empty (L : Lib) (b : BlockChain) (h : Reachable L anyChain b) :
    1 ≤ b.Chain.length ∧
      (∃ last, LastBlock b = .ok last) ∧
      ∀ (sender recipient : String) (amount : Int),
        ∃ idx b1, NewTransaction b sender recipient amount = .ok (idx, b1) := by
  have hne := Reachable_nonempty L anyChain b h
  refine ⟨List.length_pos.2 hne, ?_, ?_⟩
  · obtain ⟨last, hl⟩ := getLast?_ne_nil b.Chain hne
    exact ⟨last, (LastBlock_ok b last).2 hl⟩
  · intro sender recipient amount
    exact NewTransaction_total b sender recipient amount hne

/-- C15 on `forgedLedger`, reached through an adoption. -/
theorem C15_chain_never_empty_witness :
    Reachable toyLib anyChain forgedLedger ∧ 1 ≤ forgedLedger.Chain.length ∧
      (∃ last, LastBlock forgedLedger = .ok last) ∧
      ∀ (sender recipient : String) (amount : Int),
        ∃ idx b1, NewTransaction forgedLedger sender recipient amount = .ok (idx, b1) :=
  ⟨Reachable_forgedLedger, C15_chain_never_empty toyLib forgedLedger Reachable_forgedLedger⟩

theorem ResolveLoop_origin (L : Lib) (fetch : String → Response) :
    ∀ (scan : List String) (m : Int) (c : List Block) (m1 : Int) (c1 : List Block),
      ResolveLoop L fetch scan m c = .ok (m1, c1) →
      (m1 = m ∧ c1 = c) ∨
        ∃ node ∈ scan, ∃ data, fetch (node ++ "/chain") = .status 200 data ∧
          data.Length = m1 ∧ data.Chain = c1 ∧ m < m1 ∧ ValidChain L data.Chain = .ok true := by
  intro scan
  induction scan with
  | nil =>
    intro m c m1 c1 h
    simp only [ResolveLoop, Except.ok.injEq, Prod.mk.injEq] at h
    exact Or.inl ⟨h.1.symm, h.2.symm⟩
  | cons node rest ih =>
    intro m c m1 c1 h
    have lift : ((m1 = m ∧ c1 = c) ∨
        ∃ n ∈ rest, ∃ data, fetch (n ++ "/chain") = .status 200 data ∧
          data.Length = m1 ∧ data.Chain = c1 ∧ m < m1 ∧ ValidChain L data.Chain = .ok true) →
        ((m1 = m ∧ c1 = c) ∨
        ∃ n ∈ node :: rest, ∃ data, fetch (n ++ "/chain") = .status 200 data ∧
          data.Length = m1 ∧ data.Chain = c1 ∧ m < m1 ∧ ValidChain L data.Chain = .ok true) := by
      rintro (h1 | ⟨n, hn, data, hd⟩)
      · exact Or.inl h1
      · exact Or.inr ⟨n, List.mem_cons_of_mem _ hn, data, hd⟩
    cases hf : fetch (node ++ "/chain") with
    | transportError => simp [ResolveLoop, hf] at h
    | status code data =>
      simp only [ResolveLoop, hf] at h
      by_cases hc : code ≠ 200
      · rw [if_pos hc] at h
        exact lift (ih m c m1 c1 h)
      · rw [if_neg hc] at h
        have hc2 : code = 200 := not_not.1 hc
        subst hc2
        by_cases hlen : data.Length > m
        · rw [if_pos hlen] at h
          cases hv : ValidChain L data.Chain with
          | error e => simp [hv] at h
          | ok r =>
            cases r with
            | true =>
              simp only [hv] at h
              right
              rcases ih data.Length data.Chain m1 c1 h with ⟨h1, h2⟩ | ⟨n, hn, d, hd1, hd2, hd3, hd4, hd5⟩
              · exact ⟨node, List.mem_cons_self _ _, data, hf, h1.symm, h2.symm,
                  by rw [h1]; exact hlen, hv⟩
              · exact ⟨n, List.mem_cons_of_mem _ hn, d, hd1, hd2, hd3, lt_trans hlen hd4, hd5⟩
            | false =>
              simp only [hv] at h
              exact lift (ih m c m1 c1 h)
        · rw [if_neg hlen] at h
          exact lift (ih m c m1 c1 h)

/-- C16, as amended: whenever `ResolveConflicts` returns `true`, the chain it
installs is the non-empty chain, accepted by `ValidChain`, of a peer that
answered with status 200 and reported a `Length` above the old chain length;
it has more blocks than the chain it replaces when that reported `Length` is
the number of blocks the peer sent. -/
theorem C16_adopted_chain (L : Lib) (b : BlockChain) (scan : List String)
    (fetch : String → Response) (b1 : BlockChain)
    (h : ResolveConflicts L b scan fetch = .ok (true, b1)) :
    ∃ node ∈ scan, ∃ data, fetch (node ++ "/chain") = .status 200 data ∧
      b1 = { b with Chain := data.Chain } ∧ data.Chain ≠ [] ∧
      ValidChain L data.Chain = .ok true ∧ data.Length > (b.Chain.length : Int) ∧
      (data.Length = (data.Chain.length : Int) → b.Chain.length < b1.Chain.length) := by
  unfold ResolveConflicts at h
  cases hl : ResolveLoop L fetch scan (b.Chain.length : Int) [] with
  | error e => simp [hl] at h
  | ok r =>
    obtain ⟨m1, c1⟩ := r
    simp only [hl] at h
    by_cases hn : c1.length ≠ 0
    · rw [if_pos hn] at h
      simp only [Except.ok.injEq, Prod.mk.injEq, true_and] at h
      rcases ResolveLoop_origin L fetch scan _ [] m1 c1 hl with ⟨-, h2⟩ | ⟨n, hmem, d, hd1, hd2, hd3, hd4, hd5⟩
      · subst h2
        exact absurd rfl hn
      · subst hd3
        refine ⟨n, hmem, d, hd1, h.symm, ?_, hd5, by rw [hd2]; exact hd4, ?_⟩
        · intro he
          exact hn (by rw [he]; rfl)
        · intro hlen
          rw [← h]
          simp only
          rw [hd2.symm.trans hlen] at hd4
          exact_mod_cast hd4
    · rw [if_neg hn] at h
      simp at h

/-- C16 on the fresh ledger adopting the two-block chain of `honestPeer`. -/
theorem C16_adopted_chain_witness :
    ResolveConflicts toyLib freshLedger ["a"] honestPeer =
        .ok (true, { freshLedger with Chain := minedLedger.Chain }) ∧
      ∃ node ∈ ["a"], ∃ data, honestPeer (node ++ "/chain") = .status 200 data ∧
        ({ freshLedger with Chain := minedLedger.Chain } : BlockChain) =
          { freshLedger with Chain := data.Chain } ∧ data.Chain ≠ [] ∧
        ValidChain toyLib data.Chain = .ok true ∧
        data.Length > (freshLedger.Chain.length : Int) ∧
        (data.Length = (data.Chain.length : Int) →
          freshLedger.Chain.length <
            ({ freshLedger with Chain := minedLedger.Chain } : BlockChain).Chain.length) :=
  ⟨rfl, C16_adopted_chain toyLib freshLedger ["a"] honestPeer _ rfl⟩

/-- C16 as stated fails: `minedLedger` (two blocks) asks the peer
`forgedPeer`, which reports `Length` 5 and sends one block; `ResolveConflicts`
returns `true` and installs that one-block chain in place of the two-block
chain. -/
theorem C16_counterexample :
    ResolveConflicts toyLib minedLedger ["a"] forgedPeer =
        .ok (true, { minedLedger with Chain := [forgedBlock] }) ∧
      ([forgedBlock] : List Block).length < minedLedger.Chain.length :=
  ⟨rfl, by decide⟩

/-! ## The proof predicate -/

theorem hexDigit_eq_zero : ∀ n : Nat, n < 16 → (hexDigit n = '0' ↔ n = 0) := by
  decide

theorem byte_nibbles_zero (b : Nat) (hb : b < 256) :
    (hexDigit (b / 16 % 16) = '0' ∧ hexDigit (b % 16) = '0') ↔ b = 0 := by
  rw [hexDigit_eq_zero _ (Nat.mod_lt _ (by decide)), hexDigit_eq_zero _ (Nat.mod_lt _ (by decide))]
  omega

theorem hexString_take_four (d : List Nat) (hlen : d.length = 32)
    (hbyte : ∀ b, b ∈ d → b < 256) :
    (hexString d).take 4 = ['0', '0', '0', '0'] ↔ d.take 2 = [0, 0] := by
  match d, hlen, hbyte with
  | b0 :: b1 :: rest, _, hbyte =>
    have h0 : b0 < 256 := hbyte b0 (by simp)
    have h1 : b1 < 256 := hbyte b1 (by simp)
    simp only [hexString, List.take_succ_cons, List.take_zero, List.cons.injEq, and_true]
    rw [← and_assoc, ← and_assoc, and_assoc (c := hexDigit (b1 % 16) = '0'),
      byte_nibbles_zero b0 h0, byte_nibbles_zero b1 h1]

theorem digitChar_toNat : ∀ d : Nat, d < 10 → (Nat.digitChar d).toNat = 48 + d := by
  decide

theorem toDigitsCore_eq :
    ∀ (fuel n : Nat) (ds : List Char), n < fuel →
      Nat.toDigitsCore 10 fuel n ds =
        (if n = 0 then ['0'] else (Nat.digits 10 n).reverse.map Nat.digitChar) ++ ds := by
  intro fuel
  induction fuel with
  | zero => intro n ds h; omega
  | succ f ih =>
    intro n ds h
    simp only [Nat.toDigitsCore]
    by_cases hq : n / 10 = 0
    · rw [if_pos hq]
      have hlt : n < 10 := by omega
      by_cases h0 : n = 0
      · subst h0
        rfl
      · rw [if_neg h0, Nat.digits_of_lt 10 n h0 hlt, Nat.mod_eq_of_lt hlt]
        rfl
    · rw [if_neg hq]
      have hpos : 0 < n := by omega
      have hn0 : n ≠ 0 := by omega
      rw [ih (n / 10) _ (by omega), if_neg hq, if_neg hn0,
        Nat.digits_def' (by decide) hpos]
      simp

theorem toBytes_toString_nat (n : Nat) : toBytes (toString n).data = decimalNat n := by
  show toBytes (Nat.repr n).data = decimalNat n
  unfold Nat.repr Nat.toDigits
  rw [toDigitsCore_eq (n + 1) n [] (by omega)]
  unfold decimalNat toBytes
  by_cases h0 : n = 0
  · subst h0
    rfl
  · simp only [if_neg h0, List.append_nil, List.asString, List.map_map]
    apply List.map_congr_left
    intro d hd
    have : d < 10 := Nat.digits_lt_base (by decide) (List.mem_reverse.1 hd)
    exact digitChar_toNat d this

theorem toBytes_fmtInt (i : Int) : toBytes (fmtInt i) = asciiDecimal i := by
  unfold fmtInt asciiDecimal
  cases i with
  | ofNat m =>
    have h : ¬ (Int.ofNat m < 0) := by simp
    rw [if_neg h]
    exact toBytes_toString_nat m
  | negSucc m =>
    have h : Int.negSucc m < 0 := Int.negSucc_lt_zero m
    rw [if_pos h]
    show toBytes ("-" ++ toString (m + 1)).data = _
    rw [String.data_append]
    simp only [toBytes, List.map_append]
    have := toBytes_toString_nat (m + 1)
    simp only [toBytes] at this
    rw [this]
    rfl

theorem hexDigit_eq :
    ∀ n : Nat, n < 16 → hexDigit n = "0123456789abcdef".data.getD n '?' := by
  decide

theorem hexString_eq_lowerHex :
    ∀ (d : List Nat), (∀ b, b ∈ d → b < 256) → hexString d = lowerHex d := by
  intro d
  induction d with
  | nil => intro _; rfl
  | cons b bs ih =>
    intro h
    have hb : b < 256 := h b (by simp)
    have e1 : b / 16 % 16 = b / 16 := Nat.mod_eq_of_lt (by omega)
    simp only [hexString, lowerHex, List.flatMap_cons, List.cons_append, List.nil_append]
    rw [e1, hexDigit_eq _ (by omega), hexDigit_eq _ (Nat.mod_lt _ (by decide)),
      ih (fun x hx => h x (List.mem_cons_of_mem _ hx))]
    rfl

theorem spec_words_examples :
    asciiDecimal 100 = [49, 48, 48] ∧ asciiDecimal 0 = [48] ∧ asciiDecimal (-5) = [45, 53] ∧
      asciiDecimal 35293 = [51, 53, 50, 57, 51] ∧
      lowerHex [0, 171, 255] = "00abff".data := by
  refine ⟨?_, ?_, ?_, ?_, ?_⟩
  · simp [asciiDecimal, decimalNat]
  · simp [asciiDecimal, decimalNat]
  · simp [asciiDecimal, decimalNat]
  · simp [asciiDecimal, decimalNat]
  · decide

/-- C17: `ValidProof lastProof proof` is `true` exactly when the first four
characters of the lowercase hexadecimal SHA-256 digest of the decimal string
of `lastProof` followed, without separator, by the decimal string of `proof`
are "0000", which is the case exactly when the first two bytes (16 bits) of
that digest are zero. The decimal strings and the hexadecimal string are the
ones of `asciiDecimal` and `lowerHex`, written from the words of the spec. -/
theorem C17_ValidProof_prefix (L : Lib) (lastProof proof : Int) :
    (ValidProof L lastProof proof = true ↔
      (lowerHex (L.sum256 (asciiDecimal lastProof ++ asciiDecimal proof))).take 4 =
        "0000".data) ∧
    ((lowerHex (L.sum256 (asciiDecimal lastProof ++ asciiDecimal proof))).take 4 =
        "0000".data ↔
      (L.sum256 (asciiDecimal lastProof ++ asciiDecimal proof)).take 2 = [0, 0]) := by
  have hmsg : toBytes (fmtInt lastProof ++ fmtInt proof) =
      asciiDecimal lastProof ++ asciiDecimal proof := by
    rw [← toBytes_fmtInt, ← toBytes_fmtInt]
    simp [toBytes]
  have hhex := hexString_eq_lowerHex (L.sum256 (asciiDecimal lastProof ++ asciiDecimal proof))
    (L.sum256_byte _)
  constructor
  · unfold ValidProof
    simp only [hmsg, hhex, decide_eq_true_eq]
  · rw [← hhex]
    exact hexString_take_four _ (L.sum256_length _) (L.sum256_byte _)

theorem fmtInt_examples :
    fmtInt 100 = "100".data ∧ fmtInt 0 = "0".data ∧ fmtInt (-5) = "-5".data ∧
      fmtInt 35293 = "35293".data := by
  decide

/-- C20: when the decimal strings of `a` and `b`, joined, are the decimal
strings of `c` and `d`, joined, `ValidProof a b` and `ValidProof c d` are the
same. -/
theorem C20_ValidProof_concatenation (L : Lib) (a b c d : Int)
    (h : fmtInt a ++ fmtInt b = fmtInt c ++ fmtInt d) :
    ValidProof L a b = ValidProof L c d := by
  unfold ValidProof
  rw [h]

/-- C20 on the splits (1, 23) and (12, 3) of "123". -/
theorem C20_ValidProof_concatenation_witness :
    fmtInt 1 ++ fmtInt 23 = fmtInt 12 ++ fmtInt 3 ∧
      ValidProof toyLib 1 23 = ValidProof toyLib 12 3 :=
  ⟨by decide, C20_ValidProof_concatenation toyLib 1 23 12 3 (by decide)⟩

/-! ## Peer registration -/

theorem lookup_append_new (l : List (String × Int)) (a x : String) :
    ((l ++ [(a, 1)]).lookup x).isSome = ((l.lookup x).isSome || decide (x = a)) := by
  rw [List.lookup_append]
  cases h : l.lookup x with
  | some v => simp
  | none =>
    by_cases hx : x = a
    · subst hx
      simp
    · have hne : (x == a) = false := by simpa using hx
      simp [List.lookup, hne, hx]

theorem nodeRegisterLoop_eq :
    ∀ (nodes : List String) (b : BlockChain),
      nodeRegisterLoop b nodes = nodes.foldl RegisterNode b := by
  intro nodes
  induction nodes with
  | nil => intro b; rfl
  | cons n rest ih =>
    intro b
    simp only [nodeRegisterLoop, List.foldl_cons, RegisterNode]
    cases h : b.Nodes.lookup n with
    | some v => exact ih b
    | none => exact ih _

/-- C18: `RegisterNode` on an address the peer set already holds leaves the
ledger as it is; applying it twice is applying it once; afterwards the
address is in the peer set, every address known before still is, no other
address has come in, the keys stay without repetition, and the chain and the
pool are unchanged. -/
theorem C18_RegisterNode_idempotent (b : BlockChain) (address : String) :
    (knows b address = true → RegisterNode b address = b) ∧
      RegisterNode (RegisterNode b address) address = RegisterNode b address ∧
      knows (RegisterNode b address) address = true ∧
      (∀ other, knows (RegisterNode b address) other = true ↔
        (knows b other = true ∨ other = address)) ∧
      ((b.Nodes.map Prod.fst).Nodup → ((RegisterNode b address).Nodes.map Prod.fst).Nodup) ∧
      (RegisterNode b address).Chain = b.Chain ∧
      (RegisterNode b address).CurrentTransactions = b.CurrentTransactions := by
  unfold knows
  cases h : b.Nodes.lookup address with
  | some v =>
    have e : RegisterNode b address = b := by simp [RegisterNode, h]
    rw [e]
    refine ⟨fun _ => rfl, e, by simp [h], ?_, fun hn => hn, rfl, rfl⟩
    intro other
    constructor
    · intro ho
      exact Or.inl ho
    · rintro (ho | ho)
      · exact ho
      · rw [ho, h]
        rfl
  | none =>
    have e : RegisterNode b address =
        { b with Nodes := b.Nodes ++ [(address, 1)] } := by simp [RegisterNode, h]
    have hk : (((b.Nodes ++ [(address, 1)]).lookup address).isSome) = true := by
      rw [lookup_append_new]
      simp
    refine ⟨fun hc => by simp at hc, ?_, ?_, ?_, ?_, ?_, ?_⟩
    · rw [e]
      cases h2 : (b.Nodes ++ [(address, 1)]).lookup address with
      | some v => simp [RegisterNode, h2]
      | none => rw [h2] at hk; cases hk
    · rw [e]
      exact hk
    · intro other
      rw [e]
      simp only
      rw [lookup_append_new]
      simp
    · intro hn
      rw [e]
      simp only [List.map_append, List.map_cons, List.map_nil]
      rw [List.nodup_append]
      refine ⟨hn, by simp, ?_⟩
      intro x hx1 hx2
      simp only [List.mem_singleton] at hx2
      subst hx2
      rw [List.lookup_eq_none_iff] at h
      obtain ⟨p, hp, hpx⟩ := List.mem_map.1 hx1
      have := h p hp
      simp [hpx] at this
    · rw [e]
    · rw [e]

/-! ## Conservation of transactions -/

theorem runCalls_transactions (L : Lib) :
    ∀ (calls : List Call) (b : BlockChain), b.Chain ≠ [] →
      (∀ block ∈ b.Chain, yearInRange block.Timestamp = true) →
      ∃ b1, runCalls L b calls = .ok b1 ∧
        ledgerTransactions b1 = ledgerTransactions b ++ submitted calls := by
  intro calls
  induction calls with
  | nil =>
    intro b _ _
    exact ⟨b, rfl, by simp [submitted]⟩
  | cons call rest ih =>
    intro b hne hin
    cases call with
    | newTransaction sender recipient amount =>
      obtain ⟨idx, b1, ht⟩ := NewTransaction_total b sender recipient amount hne
      obtain ⟨-, hb1⟩ := NewTransaction_spec b sender recipient amount idx b1 ht
      have hc1 : b1.Chain = b.Chain := by rw [hb1]
      obtain ⟨b2, hr, hl⟩ := ih b1 (hc1 ▸ hne) (hc1 ▸ hin)
      refine ⟨b2, by simp only [runCalls, ht]; exact hr, ?_⟩
      rw [hl, hb1]
      simp [ledgerTransactions, submitted]
    | newBlock now proof previousHash =>
      obtain ⟨last, hl0⟩ := getLast?_ne_nil b.Chain hne
      obtain ⟨block, b1, hb⟩ := NewBlock_total L b now proof previousHash
        (Or.inr ⟨last, hl0, hin last (List.mem_of_getLast?_eq_some hl0)⟩)
      obtain ⟨-, h2, h3, -, -, -, hb1⟩ := NewBlock_spec L b now proof previousHash block b1 hb
      have hne1 : b1.Chain ≠ [] := by rw [hb1]; simp
      have hin1 : ∀ x ∈ b1.Chain, yearInRange x.Timestamp = true := by
        rw [hb1]
        intro x hx
        rcases List.mem_append.1 hx with h | h
        · exact hin x h
        · simp only [List.mem_singleton] at h
          rw [h, h2]
          exact now.inRange
      obtain ⟨b2, hr, hl⟩ := ih b1 hne1 hin1
      refine ⟨b2, by simp only [runCalls, hb]; exact hr, ?_⟩
      rw [hl, hb1]
      simp [ledgerTransactions, submitted, h3]

/-- C19: every sequence of `NewTransaction` and `NewBlock` calls on a freshly
constructed ledger succeeds, and afterwards the transactions of all blocks in
chain order followed by the pending pool are exactly the transactions
submitted, in submission order. -/
theorem C19_transactions_conserved (L : Lib) (now : Now) (calls : List Call) :
    ∃ (b0 b : BlockChain), NewBlockChain L now = .ok b0 ∧ runCalls L b0 calls = .ok b ∧
      ledgerTransactions b = submitted calls := by
  obtain ⟨b, hr, hl⟩ := runCalls_transactions L calls
    { Chain := [{ Index := 1, Timestamp := now.stamp, Transactions := [], Proof := 100,
                  PreviousHash := "1" }]
      CurrentTransactions := []
      Nodes := [] } (by simp)
    (fun x hx => by
      simp only [List.mem_singleton] at hx
      rw [hx]
      exact now.inRange)
  refine ⟨_, b, NewBlockChain_eq L now, hr, ?_⟩
  rw [hl]
  simp [ledgerTransactions]

theorem runCalls_sample :
    (runCalls toyLib freshLedger sampleCalls).map ledgerTransactions =
      .ok [{ Sender := "alice", Recipient := "bob", Amount := 3 },
           { Sender := "bob", Recipient := "carol", Amount := 1 },
           { Sender := "carol", Recipient := "alice", Amount := 2 }] := by
  rfl

end BlockchainGo
